import Mathlib

/-!
A shallow embedding of the TOML lexer in `src/lex.rs` (the `Lex` scanner).

The scanner walks the input byte-by-byte; absent bytes read as 0
(`*text.as_bytes().get(i).unwrap_or(&0)`), so the cached `current` byte is a
pure function of the cursor and we model the mutable scanner state as just the
cursor plus the output symbol vector.  Every Rust loop becomes a fuel-indexed
recursion; running out of fuel is reported by a dedicated outcome distinct from
`Ok`, `Err` and panics (`todo!()` / `panic!()` are modelled by the `panic`
outcome).  All outcomes carry the scanner state, mirroring the fact that the
Rust `Lex` value (and its `symbols` vector) survives an `Err` return.
-/

namespace TomlLex

/-- Byte of the input at position `i`, `0` past the end — mirrors
`*self.text.as_bytes().get(i).unwrap_or(&0)`. -/
def byteAt (t : List Nat) (i : Nat) : Nat := t.getD i 0

/-- `Span { lo, hi }` from lex.rs (fields as stored). -/
structure Span where
  lo : Nat
  hi : Nat
deriving DecidableEq, Repr

/-- `enum Sym` from lex.rs. -/
inductive Sym where
  | eof | table | arrayOfTable | tableEnd | inlineTable | inlineTableEnd
  | array | arrayEnd | assign | key | str | integer | float | bool | dateTime
deriving DecidableEq, Repr

/-- `struct Symbol` from lex.rs. -/
structure Symbol where
  sym : Sym
  span : Span
deriving DecidableEq, Repr

/-- `Symbol::new(sym, pos)`: a marker span `{ lo: pos, hi: pos + 1 }`. -/
def Symbol.new (sym : Sym) (pos : Nat) : Symbol := ⟨sym, ⟨pos, pos + 1⟩⟩

/-- `Symbol::with_span(sym, lo, hi)`: `hi` is the index of the final character
included in the span, stored as one past it (`Span { lo, hi: hi + 1 }`). -/
def Symbol.withSpan (sym : Sym) (lo hi : Nat) : Symbol := ⟨sym, ⟨lo, hi + 1⟩⟩

/-- `enum Error` from lex.rs (the closed nine-variant taxonomy). -/
inductive LexError where
  | controlCharacter (pos : Nat)
  | tooManyQuotesInString (start pos : Nat)
  | unterminatedString (start pos : Nat)
  | multilineKey (pos : Nat)
  | multilineString (pos : Nat)
  | missingDelimiter (pos : Nat)
  | unconsumedInput (pos : Nat)
  | expected (pos c : Nat)
  | unexpected (pos : Nat)
deriving DecidableEq, Repr

/-- The mutable scanner state: cursor `index` and the output `symbols` vector
(`current` is derived, see `byteAt`). -/
structure St where
  index : Nat
  symbols : List Symbol
deriving DecidableEq, Repr

/-- Outcome of running a scanning routine: `Ok(())`, `Err(e)`, a Rust panic
(`todo!()` / `panic!()`), or fuel exhaustion (an artifact of the embedding,
never produced by the Rust code).  All carry the state reached. -/
inductive R where
  | ok (s : St)
  | err (e : LexError) (s : St)
  | panic (s : St)
  | fuelOut (s : St)
deriving DecidableEq, Repr

/-- The state carried by an outcome. -/
def R.state : R → St
  | .ok s => s
  | .err _ s => s
  | .panic s => s
  | .fuelOut s => s

/-- Sequencing of scanning routines (Rust's `?` on `Result<(), Error>`). -/
def andThen : R → (St → R) → R
  | .ok s, k => k s
  | r, _ => r

/-- `self.next()` (the cached current byte is derived, so only the cursor moves). -/
def adv (s : St) : St := { s with index := s.index + 1 }

/-- `self.advance(i)`. -/
def jump (s : St) (i : Nat) : St := { s with index := i }

/-- `self.push(sym)`: push a marker symbol at the current cursor. -/
def push (s : St) (sym : Sym) : St :=
  { s with symbols := s.symbols ++ [Symbol.new sym s.index] }

/-- `self.push_span(sym, lo, hi)`. -/
def pushSpan (s : St) (sym : Sym) (lo hi : Nat) : St :=
  { s with symbols := s.symbols ++ [Symbol.withSpan sym lo hi] }

/-- Bare-key bytes `a-z A-Z 0-9 _ -`. -/
def isKeyByte (c : Nat) : Prop :=
  (97 ≤ c ∧ c ≤ 122) ∨ (65 ≤ c ∧ c ≤ 90) ∨ (48 ≤ c ∧ c ≤ 57) ∨ c = 95 ∨ c = 45

instance (c : Nat) : Decidable (isKeyByte c) := by unfold isKeyByte; infer_instance

/-- The illegal-control-character byte classes `0x1..=0x8 | 0xa..=0x1f | 0x7f`
matched inside comments. -/
def isCtrl (c : Nat) : Prop :=
  (1 ≤ c ∧ c ≤ 8) ∨ (10 ≤ c ∧ c ≤ 31) ∨ c = 127

instance (c : Nat) : Decidable (isCtrl c) := by unfold isCtrl; infer_instance

/-- Loop of `consume_comment` (after the initial `next`): eat bytes to end of
line, rejecting raw control characters. -/
def consumeCommentLoop (t : List Nat) : Nat → St → R
  | 0, s => .fuelOut s
  | f + 1, s =>
    let c := byteAt t s.index
    if c = 0 ∨ c = 10 then .ok s
    else if c = 13 then
      if byteAt t (s.index + 1) ≠ 10 then .err (.controlCharacter s.index) s
      else .ok (jump s (s.index + 2))
    else if isCtrl c then .err (.controlCharacter s.index) s
    else consumeCommentLoop t f (adv s)

/-- `consume_comment`: skips the `#`, then consumes until end of line / input. -/
def consumeComment (t : List Nat) (f : Nat) (s : St) : R :=
  consumeCommentLoop t f (adv s)

/-- `consume_line`: consumes spaces, tabs and an optional comment up to the next
newline or end of input; anything else is `Unexpected`. -/
def consumeLine (t : List Nat) : Nat → St → R
  | 0, s => .fuelOut s
  | f + 1, s =>
    let c := byteAt t s.index
    if c = 0 ∨ c = 10 then .ok s
    else if c = 13 then
      if byteAt t (s.index + 1) ≠ 10 then .err (.controlCharacter s.index) s
      else .ok (jump s (s.index + 2))
    else if c = 32 ∨ c = 9 then consumeLine t f (adv s)
    else if c = 35 then consumeComment t f s
    else .err (.unexpected s.index) s

/-- `skip_whitespace_and_comment`: skips spaces, tabs, `\n`, comments — but the
`\r` arm `break`s out of the loop right after consuming a `\r\n`. -/
def skipWsComment (t : List Nat) : Nat → St → R
  | 0, s => .fuelOut s
  | f + 1, s =>
    let c := byteAt t s.index
    if c = 13 then
      if byteAt t (s.index + 1) ≠ 10 then .err (.controlCharacter s.index) s
      else .ok (jump s (s.index + 2))
    else if c = 10 ∨ c = 32 ∨ c = 9 then skipWsComment t f (adv s)
    else if c = 35 then andThen (consumeComment t f s) (skipWsComment t f)
    else .ok s

/-- `skip_whitespace`: skips only spaces and tabs. -/
def skipWs (t : List Nat) : Nat → St → R
  | 0, s => .fuelOut s
  | f + 1, s =>
    let c := byteAt t s.index
    if c = 32 ∨ c = 9 then skipWs t f (adv s) else .ok s

/-- Loop of `scan_key`: `next()` first, then classify; stops (without
consuming) on space/tab/`=`/`.`/`]`. -/
def scanKeyLoop (t : List Nat) : Nat → St → R
  | 0, s => .fuelOut s
  | f + 1, s =>
    let s1 := adv s
    let c := byteAt t s1.index
    if isKeyByte c then scanKeyLoop t f s1
    else if c = 32 ∨ c = 9 ∨ c = 61 ∨ c = 46 ∨ c = 93 then .ok s1
    else .err (.unexpected s1.index) s1

/-- `scan_key`: consume a bare key starting at the cursor and push
`Key` with `push_span(Key, start, index - 1)`. -/
def scanKey (t : List Nat) (f : Nat) (s : St) : R :=
  andThen (scanKeyLoop t f s) fun s1 => .ok (pushSpan s1 .key s.index (s1.index - 1))

/-- Loop of `scan_basic_string`: tracks the run of immediately preceding
backslashes; an unescaped `"` terminates. -/
def scanBasicLoop (t : List Nat) (start : Nat) : Nat → Nat → St → R
  | 0, _, s => .fuelOut s
  | f + 1, slash, s =>
    let c := byteAt t s.index
    if c = 34 then
      if slash % 2 = 0 then .ok s
      else scanBasicLoop t start f 0 (adv s)
    else if c = 92 then scanBasicLoop t start f (slash + 1) (adv s)
    else if c = 10 ∨ c = 0 then .err (.unterminatedString start s.index) s
    else scanBasicLoop t start f 0 (adv s)

/-- `scan_basic_string`: skips the opening quote, scans to the terminating
unescaped quote, then `push_span(String, start, index)` (with the cursor on the
closing quote) and steps past it. -/
def scanBasicString (t : List Nat) (f : Nat) (s : St) : R :=
  let s1 := adv s
  andThen (scanBasicLoop t s1.index f 0 s1) fun s2 =>
    .ok (adv (pushSpan s2 .str s1.index s2.index))

/-- Loop of `scan_multiline_basic_string`: the quote-count / slash-count
automaton.  On a quote run of 3–5 the string closes with
`push_span(String, start, index - (quote_count - 3))`. -/
def scanMLBasicLoop (t : List Nat) (start : Nat) : Nat → Nat → Nat → St → R
  | 0, _, _, s => .fuelOut s
  | f + 1, qc, slash, s =>
    let c := byteAt t s.index
    if c = 34 then
      if slash % 2 = 0 then scanMLBasicLoop t start f (qc + 1) 0 (adv s)
      else scanMLBasicLoop t start f 0 0 (adv s)
    else if c = 92 then
      if qc ≤ 2 then scanMLBasicLoop t start f 0 (slash + 1) (adv s)
      else if qc ≤ 5 then .ok (pushSpan s .str start (s.index - (qc - 3)))
      else .err (.tooManyQuotesInString start s.index) s
    else
      if 3 ≤ qc ∧ qc ≤ 5 then .ok (pushSpan s .str start (s.index - (qc - 3)))
      else if 6 ≤ qc then .err (.tooManyQuotesInString start s.index) s
      else if c = 0 then .err (.unterminatedString start s.index) s
      else scanMLBasicLoop t start f 0 slash (adv s)

/-- `scan_multiline_basic_string`: skips the `"""` and runs the automaton. -/
def scanMultilineBasicString (t : List Nat) (f : Nat) (s : St) : R :=
  let s1 := jump s (s.index + 3)
  scanMLBasicLoop t s1.index f 0 0 s1

/-- Leftmost index of a `'''` in the given byte list (models
`memmem::find(rest, b"'''")`). -/
def findTriple : List Nat → Option Nat
  | [] => none
  | a :: rest =>
    if a = 39 ∧ rest.head? = some 39 ∧ rest.tail.head? = some 39 then some 0
    else (findTriple rest).map (· + 1)

/-- `scan_multiline_literal_string`: jump past the found `'''`, absorb up to two
extra quotes, reject a third, and `push_span(String, start, index - 3)`. -/
def scanMultilineLiteralString (t : List Nat) (_f : Nat) (s : St) : R :=
  let start := s.index + 3
  let s1 := jump s start
  match findTriple (t.drop start) with
  | some i =>
    let s2 := jump s1 (start + i + 3)
    if byteAt t s2.index = 39 then
      let s3 := adv s2
      if byteAt t s3.index = 39 then
        let s4 := adv s3
        if byteAt t s4.index = 39 then .err (.tooManyQuotesInString start s4.index) s4
        else .ok (pushSpan s4 .str start (s4.index - 3))
      else .ok (pushSpan s3 .str start (s3.index - 3))
    else .ok (pushSpan s2 .str start (s2.index - 3))
  | none => .err (.unterminatedString start s1.index) s1

/-- Leftmost index of a byte in `{\n, ', NUL}` (models
`memchr::memchr3(b'\n', b'\'', b'\0', rest)`). -/
def findLit : List Nat → Option Nat
  | [] => none
  | a :: rest =>
    if a = 10 ∨ a = 39 ∨ a = 0 then some 0 else (findLit rest).map (· + 1)

/-- `scan_literal_string`: one bounded forward search; a `'` terminator pushes
`push_span(String, start, start + i - 1)` (content strictly between quotes). -/
def scanLiteralString (t : List Nat) (_f : Nat) (s : St) : R :=
  let start := s.index + 1
  let s1 := jump s start
  match findLit (t.drop start) with
  | some i =>
    let s2 := jump s1 (start + i + 1)
    if byteAt t (start + i) = 39 then .ok (pushSpan s2 .str start (start + i - 1))
    else .err (.unterminatedString start s2.index) s2
  | none => .err (.unterminatedString start s1.index) s1

/-- `scan_string`: dispatch on up to three leading bytes; the final arm is the
Rust `panic!()`. -/
def scanString (t : List Nat) (f : Nat) (s : St) : R :=
  let c0 := byteAt t s.index
  let c1 := byteAt t (s.index + 1)
  let c2 := byteAt t (s.index + 2)
  if c0 = 39 ∧ c1 = 39 ∧ c2 = 39 then scanMultilineLiteralString t f s
  else if c0 = 34 ∧ c1 = 34 ∧ c2 = 34 then scanMultilineBasicString t f s
  else if c0 = 39 then scanLiteralString t f s
  else if c0 = 34 then scanBasicString t f s
  else .panic s

/-- `scan_single_line_string`: as `scan_string` but multiline forms are
`MultilineString{pos}`. -/
def scanSingleLineString (t : List Nat) (f : Nat) (s : St) : R :=
  let c0 := byteAt t s.index
  let c1 := byteAt t (s.index + 1)
  let c2 := byteAt t (s.index + 2)
  if c0 = 39 ∧ c1 = 39 ∧ c2 = 39 then .err (.multilineString s.index) s
  else if c0 = 34 ∧ c1 = 34 ∧ c2 = 34 then .err (.multilineString s.index) s
  else if c0 = 39 then scanLiteralString t f s
  else if c0 = 34 then scanBasicString t f s
  else .panic s

/-- Hexadecimal digit loop of `scan_number`.  Note the `'_'` arm clears
`allow_underscore` but does NOT advance the cursor (exactly as in the source),
so a second look at the same `_` fails with `Unexpected`. -/
def scanHexLoop (t : List Nat) : Nat → Bool → St → R
  | 0, _, s => .fuelOut s
  | f + 1, allow, s =>
    let c := byteAt t s.index
    if (48 ≤ c ∧ c ≤ 57) ∨ (97 ≤ c ∧ c ≤ 102) ∨ (65 ≤ c ∧ c ≤ 70) then
      scanHexLoop t f true (adv s)
    else if c = 95 then
      if !allow then .err (.unexpected s.index) s
      else scanHexLoop t f false s
    else if c = 0 ∨ c = 32 ∨ c = 9 ∨ c = 10 ∨ c = 35 ∨ c = 44 then .ok s
    else .err (.unexpected s.index) s

/-- Octal digit loop of `scan_number` (this one advances past `_`). -/
def scanOctLoop (t : List Nat) : Nat → Bool → St → R
  | 0, _, s => .fuelOut s
  | f + 1, allow, s =>
    let c := byteAt t s.index
    if 48 ≤ c ∧ c ≤ 55 then scanOctLoop t f true (adv s)
    else if c = 95 then
      if !allow then .err (.unexpected s.index) s
      else scanOctLoop t f false (adv s)
    else if c = 0 ∨ c = 32 ∨ c = 9 ∨ c = 10 ∨ c = 35 ∨ c = 44 then .ok s
    else .err (.unexpected s.index) s

/-- Binary digit loop of `scan_number` (advances past `_`). -/
def scanBinLoop (t : List Nat) : Nat → Bool → St → R
  | 0, _, s => .fuelOut s
  | f + 1, allow, s =>
    let c := byteAt t s.index
    if c = 48 ∨ c = 49 then scanBinLoop t f true (adv s)
    else if c = 95 then
      if !allow then .err (.unexpected s.index) s
      else scanBinLoop t f false (adv s)
    else if c = 0 ∨ c = 32 ∨ c = 9 ∨ c = 10 ∨ c = 35 ∨ c = 44 then .ok s
    else .err (.unexpected s.index) s

/-- Decimal digit loop of `scan_number` (advances past `_`). -/
def scanDecLoop (t : List Nat) : Nat → Bool → St → R
  | 0, _, s => .fuelOut s
  | f + 1, allow, s =>
    let c := byteAt t s.index
    if 48 ≤ c ∧ c ≤ 57 then scanDecLoop t f true (adv s)
    else if c = 95 then
      if !allow then .err (.unexpected s.index) s
      else scanDecLoop t f false (adv s)
    else if c = 0 ∨ c = 32 ∨ c = 9 ∨ c = 10 ∨ c = 35 ∨ c = 44 then .ok s
    else .err (.unexpected s.index) s

/-- `scan_number`: optional sign, then `0x`/`0o`/`0b` or plain decimal;
in every case `push_span(Integer, start, index - 1)` on success. -/
def scanNumber (t : List Nat) (f : Nat) (s : St) : R :=
  let start := s.index
  let s1 := if byteAt t s.index = 45 ∨ byteAt t s.index = 43 then adv s else s
  if byteAt t s1.index = 48 ∧ (byteAt t (s1.index + 1) = 120 ∨ byteAt t (s1.index + 1) = 88) then
    andThen (scanHexLoop t f false (jump s1 (s1.index + 2))) fun s2 =>
      .ok (pushSpan s2 .integer start (s2.index - 1))
  else if byteAt t s1.index = 48 ∧ (byteAt t (s1.index + 1) = 111 ∨ byteAt t (s1.index + 1) = 79) then
    andThen (scanOctLoop t f false (jump s1 (s1.index + 2))) fun s2 =>
      .ok (pushSpan s2 .integer start (s2.index - 1))
  else if byteAt t s1.index = 48 ∧ (byteAt t (s1.index + 1) = 98 ∨ byteAt t (s1.index + 1) = 66) then
    andThen (scanBinLoop t f false (jump s1 (s1.index + 2))) fun s2 =>
      .ok (pushSpan s2 .integer start (s2.index - 1))
  else
    andThen (scanDecLoop t f false s1) fun s2 =>
      .ok (pushSpan s2 .integer start (s2.index - 1))

/-- `scan_number_or_date` is `todo!()` in the source: it panics. -/
def scanNumberOrDate (_t : List Nat) (_f : Nat) (s : St) : R := .panic s

/-- Loop of `scan_dotted`: skip spaces/tabs, then alternate dots with
key-or-string segments; `=` (with no pending dot) pushes `Assign` and stops.
A `\r` followed by `\n` and a raw `\n` give `MultilineKey`; a bare `\r` gives
`ControlCharacter`. -/
def scanDottedLoop (t : List Nat) : Nat → Bool → St → R
  | 0, _, s => .fuelOut s
  | f + 1, saw, s =>
    andThen (skipWs t f s) fun s1 =>
      let c := byteAt t s1.index
      if c = 13 then
        if byteAt t (s1.index + 1) ≠ 10 then .err (.controlCharacter s1.index) s1
        else .err (.multilineKey s1.index) s1
      else if c = 10 then .err (.multilineKey s1.index) s1
      else if c = 46 then
        if saw then .err (.unexpected s1.index) s1
        else scanDottedLoop t f true (adv s1)
      else if c = 61 then
        if saw then .err (.unexpected s1.index) s1
        else .ok (adv (push s1 .assign))
      else if c = 34 ∨ c = 39 then
        if saw then andThen (scanString t f s1) (scanDottedLoop t f false)
        else .err (.unexpected s1.index) s1
      else if isKeyByte c then
        if saw then andThen (scanKey t f s1) (scanDottedLoop t f false)
        else .err (.unexpected s1.index) s1
      else .err (.unexpected s1.index) s1

/-- `scan_dotted`: the continuation of a key-like after its first segment,
up to and including the `=` (which emits `Assign`). -/
def scanDotted (t : List Nat) (f : Nat) (s : St) : R :=
  scanDottedLoop t f false s

/-- `scan_key_like`: first key-or-string segment, then `scan_dotted`. -/
def scanKeyLike (t : List Nat) (f : Nat) (s : St) : R :=
  let c := byteAt t s.index
  if c = 34 ∨ c = 39 then andThen (scanString t f s) (scanDotted t f)
  else if isKeyByte c then andThen (scanKey t f s) (scanDotted t f)
  else .err (.unexpected s.index) s

mutual

/-- `scan_value`: dispatch on the current byte.  `true`/`false` use open slice
patterns; `inf`/`nan` use EXACT slice patterns (they only match when the
literal is the entire remaining input, as in the source); `+`/`-` go to
`scan_number`; a digit goes to the `todo!()` stub `scan_number_or_date`. -/
def scanValue (t : List Nat) : Nat → St → R
  | 0, s => .fuelOut s
  | f + 1, s =>
    let c := byteAt t s.index
    if c = 34 ∨ c = 39 then scanString t f s
    else if c = 123 then scanInlineTable t f s
    else if c = 91 then scanArray t f s
    else if c = 116 ∨ c = 102 then
      if byteAt t s.index = 116 ∧ byteAt t (s.index + 1) = 114 ∧
          byteAt t (s.index + 2) = 117 ∧ byteAt t (s.index + 3) = 101 then
        .ok (pushSpan (jump s (s.index + 4)) .bool s.index (s.index + 4))
      else if byteAt t s.index = 102 ∧ byteAt t (s.index + 1) = 97 ∧
          byteAt t (s.index + 2) = 108 ∧ byteAt t (s.index + 3) = 115 ∧
          byteAt t (s.index + 4) = 101 then
        .ok (pushSpan (jump s (s.index + 5)) .bool s.index (s.index + 5))
      else .err (.unexpected s.index) s
    else if c = 105 ∨ c = 110 then
      if t.drop s.index = [105, 110, 102] ∨ t.drop s.index = [110, 97, 110] then
        .ok (pushSpan (jump s (s.index + 3)) .float s.index (s.index + 3))
      else .err (.unexpected s.index) s
    else if c = 43 ∨ c = 45 then scanNumber t f s
    else if 48 ≤ c ∧ c ≤ 57 then scanNumberOrDate t f s
    else .err (.unexpected s.index) s

/-- `scan_array`: emit `Array` at `[`, skip whitespace/comments, then either an
immediate `]` or a first value followed by the comma loop. -/
def scanArray (t : List Nat) : Nat → St → R
  | 0, s => .fuelOut s
  | f + 1, s =>
    let s1 := adv (push s .array)
    andThen (skipWsComment t f s1) fun s2 =>
      if byteAt t s2.index = 93 then .ok (adv (push s2 .arrayEnd))
      else andThen (scanValue t f s2) fun s3 => scanArrayLoop t f s3

/-- Comma loop of `scan_array`; both exits push `ArrayEnd` at the `]` and step
past it. -/
def scanArrayLoop (t : List Nat) : Nat → St → R
  | 0, s => .fuelOut s
  | f + 1, s =>
    andThen (skipWsComment t f s) fun s1 =>
      let c := byteAt t s1.index
      if c = 44 then
        andThen (skipWsComment t f (adv s1)) fun s2 =>
          if byteAt t s2.index = 93 then .ok (adv (push s2 .arrayEnd))
          else andThen (scanValue t f s2) fun s3 => scanArrayLoop t f s3
      else if c = 93 then .ok (adv (push s1 .arrayEnd))
      else .err (.missingDelimiter s1.index) s1

/-- `scan_inline_table`: emit `InlineTable` at `{`; only spaces/tabs between
items; an immediate `}` is eaten first and `InlineTableEnd` pushed after it. -/
def scanInlineTable (t : List Nat) : Nat → St → R
  | 0, s => .fuelOut s
  | f + 1, s =>
    let s1 := adv (push s .inlineTable)
    andThen (skipWs t f s1) fun s2 =>
      if byteAt t s2.index = 125 then .ok (push (adv s2) .inlineTableEnd)
      else
        andThen (scanKeyLike t f s2) fun s3 =>
          andThen (skipWs t f s3) fun s4 =>
            andThen (scanValue t f s4) fun s5 => scanInlineTableLoop t f s5

/-- Comma loop of `scan_inline_table`; the `}` exit pushes `InlineTableEnd` at
the `}` and steps past it. -/
def scanInlineTableLoop (t : List Nat) : Nat → St → R
  | 0, s => .fuelOut s
  | f + 1, s =>
    andThen (skipWs t f s) fun s1 =>
      let c := byteAt t s1.index
      if c = 44 then
        andThen (skipWs t f (adv s1)) fun s2 =>
          andThen (scanKeyLike t f s2) fun s3 =>
            andThen (skipWs t f s3) fun s4 =>
              andThen (scanValue t f s4) fun s5 => scanInlineTableLoop t f s5
      else if c = 125 then .ok (adv (push s1 .inlineTableEnd))
      else .err (.missingDelimiter s1.index) s1

end

/-- Loop of `scan_table`: a single-line dotted path terminated by `]`
(`saw_dot` starts `true` in the caller). -/
def scanTableLoop (t : List Nat) : Nat → Bool → St → R
  | 0, _, s => .fuelOut s
  | f + 1, saw, s =>
    let c := byteAt t s.index
    if c = 13 then
      if byteAt t (s.index + 1) ≠ 10 then .err (.controlCharacter s.index) s
      else .err (.multilineKey s.index) s
    else if c = 10 then .err (.multilineKey s.index) s
    else if c = 32 ∨ c = 9 then scanTableLoop t f saw (adv s)
    else if c = 46 then
      if saw then .err (.unexpected s.index) s
      else scanTableLoop t f true (adv s)
    else if c = 93 then
      if saw then .err (.unexpected s.index) s
      else .ok (adv s)
    else if c = 34 ∨ c = 39 then
      if saw then andThen (scanSingleLineString t f s) (scanTableLoop t f false)
      else .err (.unexpected s.index) s
    else if isKeyByte c then
      if saw then andThen (scanKey t f s) (scanTableLoop t f false)
      else .err (.unexpected s.index) s
    else .err (.unexpected s.index) s

/-- `scan_table`: consume `[` (and a second `[` for an array-of-tables), THEN
push the header symbol at the resulting cursor; scan the path, require the
second `]` for array-of-tables, consume the rest of the line, push `TableEnd`. -/
def scanTable (t : List Nat) (f : Nat) (s : St) : R :=
  let s1 := adv s
  if byteAt t s1.index = 91 then
    let s2 := push (adv s1) .arrayOfTable
    andThen (scanTableLoop t f true s2) fun s3 =>
      if byteAt t s3.index = 93 then
        andThen (consumeLine t f (adv s3)) fun s4 => .ok (push s4 .tableEnd)
      else .err (.expected s3.index 93) s3
  else
    let s2 := push s1 .table
    andThen (scanTableLoop t f true s2) fun s3 =>
      andThen (consumeLine t f s3) fun s4 => .ok (push s4 .tableEnd)

/-- The driving loop of `Lex::scan`. -/
def scanLoop (t : List Nat) : Nat → St → R
  | 0, s => .fuelOut s
  | f + 1, s =>
    let c := byteAt t s.index
    if c = 13 then
      if byteAt t (s.index + 1) ≠ 10 then .err (.controlCharacter s.index) s
      else scanLoop t f (jump s (s.index + 2))
    else if c = 10 ∨ c = 32 ∨ c = 9 then scanLoop t f (adv s)
    else if c = 35 then andThen (consumeComment t f s) (scanLoop t f)
    else if c = 91 then andThen (scanTable t f s) (scanLoop t f)
    else if c = 34 ∨ c = 39 ∨ isKeyByte c then
      andThen (scanKeyLike t f s) fun s1 =>
        andThen (skipWs t f s1) fun s2 =>
          andThen (scanValue t f s2) fun s3 =>
            andThen (consumeLine t f s3) fun s4 => scanLoop t f s4
    else if c = 0 then .ok s
    else .err (.unexpected s.index) s

/-- `Lex::scan` run from `Lex::new(text)`: the loop, the end-of-input check,
and the final `Eof` push. -/
def scanTop (t : List Nat) (f : Nat) : R :=
  andThen (scanLoop t f ⟨0, []⟩) fun s =>
    if s.index ≠ t.length then .err (.unconsumedInput s.index) s
    else .ok (push s .eof)

/-- The bytes of the input covered by a stored (half-open) span. -/
def sliceSpan (t : List Nat) (sp : Span) : List Nat := (t.drop sp.lo).take (sp.hi - sp.lo)

/-- The bytes on which the digit loops of `scan_number` stop with `Ok`:
NUL (end of input), space, tab, `\n`, `#`, `,`. -/
def isNumTerm (c : Nat) : Prop := c = 0 ∨ c = 32 ∨ c = 9 ∨ c = 10 ∨ c = 35 ∨ c = 44

/-- Well-formedness of a stored span relative to the input length: the lower
bound does not exceed the stored one-past upper bound, and the stored upper
bound exceeds the input length by at most one. -/
def okSpan (n : Nat) (x : Symbol) : Prop := x.span.lo ≤ x.span.hi ∧ x.span.hi ≤ n + 1

/-- The invariant carried through every scanning routine: the routine only
appends to the symbol vector, appends no `Eof` and only well-formed spans, and
moves the cursor monotonically without passing the end of the input. -/
def Spec (t : List Nat) (s : St) (r : R) : Prop :=
  (∃ u, (R.state r).symbols = s.symbols ++ u ∧ ∀ x ∈ u, x.sym ≠ Sym.eof ∧ okSpan t.length x)
  ∧ s.index ≤ (R.state r).index ∧ (R.state r).index ≤ t.length

end TomlLex


namespace TomlLex

/-! ### Verification layer -/

theorem byteAt_lt_length {t : List Nat} {i : Nat} (h : byteAt t i ≠ 0) : i < t.length := by
  by_contra hc
  apply h
  unfold byteAt
  exact List.getD_eq_default _ _ (Nat.le_of_not_lt hc)

theorem isKeyByte_ne_zero {c : Nat} (h : isKeyByte c) : c ≠ 0 := by
  unfold isKeyByte at h; omega

theorem spec_no_push {t : List Nat} {s : St} {r : R} {i : Nat}
    (hr : R.state r = ⟨i, s.symbols⟩) (h1 : s.index ≤ i) (h2 : i ≤ t.length) : Spec t s r :=
  ⟨⟨[], by rw [hr]; simp, by simp⟩, by rw [hr]; exact h1, by rw [hr]; exact h2⟩

theorem spec_trans {t : List Nat} {s s' : St} {r : R}
    (h1 : Spec t s (.ok s')) (h2 : Spec t s' r) : Spec t s r := by
  obtain ⟨⟨u1, hu1, hp1⟩, hi1, _⟩ := h1
  obtain ⟨⟨u2, hu2, hp2⟩, hi2, hi3⟩ := h2
  simp only [R.state] at hu1 hi1
  refine ⟨⟨u1 ++ u2, by rw [hu2, hu1, List.append_assoc], ?_⟩, le_trans hi1 hi2, hi3⟩
  intro x hx
  rcases List.mem_append.1 hx with h | h
  · exact hp1 x h
  · exact hp2 x h

theorem spec_bind {t : List Nat} {s : St} {r : R} {k : St → R}
    (h1 : Spec t s r) (h2 : ∀ s', r = .ok s' → Spec t s' (k s')) :
    Spec t s (andThen r k) := by
  cases r with
  | ok s' => exact spec_trans h1 (h2 s' rfl)
  | err e s' => exact h1
  | panic s' => exact h1
  | fuelOut s' => exact h1

theorem spec_mk {t : List Nat} {s : St} {x : Symbol} {i : Nat}
    (hs : x.sym ≠ Sym.eof) (h1 : okSpan t.length x) (h3 : s.index ≤ i) (h4 : i ≤ t.length) :
    Spec t s (.ok ⟨i, s.symbols ++ [x]⟩) := by
  refine ⟨⟨[x], rfl, ?_⟩, h3, h4⟩
  intro y hy
  rw [List.mem_singleton] at hy
  subst hy
  exact ⟨hs, h1⟩

theorem skipWs_spec (t : List Nat) : ∀ f s, s.index ≤ t.length → Spec t s (skipWs t f s) := by
  intro f
  induction f with
  | zero => intro s h; exact spec_no_push rfl (le_refl _) h
  | succ f ih =>
    intro s h
    simp only [skipWs]
    split
    · rename_i hc
      have hlt := byteAt_lt_length (t := t) (i := s.index) (by omega)
      exact spec_trans (spec_no_push (i := s.index + 1) rfl (Nat.le_succ _) hlt) (ih (adv s) hlt)
    · exact spec_no_push rfl (le_refl _) h

theorem consumeCommentLoop_spec (t : List Nat) :
    ∀ f s, s.index ≤ t.length → Spec t s (consumeCommentLoop t f s) := by
  intro f
  induction f with
  | zero => intro s h; exact spec_no_push rfl (le_refl _) h
  | succ f ih =>
    intro s h
    simp only [consumeCommentLoop]
    split
    · exact spec_no_push rfl (le_refl _) h
    · split
      · split
        · exact spec_no_push rfl (le_refl _) h
        · rename_i hc0 hc13 hpk
          have hlt := byteAt_lt_length (t := t) (i := s.index + 1) (by omega)
          exact spec_no_push rfl (by omega) (by omega)
      · split
        · exact spec_no_push rfl (le_refl _) h
        · rename_i hc0 hc13 hctl
          have hlt := byteAt_lt_length (t := t) (i := s.index) (by omega)
          exact spec_trans (spec_no_push (i := s.index + 1) rfl (Nat.le_succ _) hlt)
            (ih (adv s) hlt)

theorem consumeComment_spec (t : List Nat) (f : Nat) {s : St} (h : s.index < t.length) :
    Spec t s (consumeComment t f s) := by
  unfold consumeComment
  exact spec_trans (spec_no_push (i := s.index + 1) rfl (Nat.le_succ _) h)
    (consumeCommentLoop_spec t f (adv s) h)

theorem consumeLine_spec (t : List Nat) :
    ∀ f s, s.index ≤ t.length → Spec t s (consumeLine t f s) := by
  intro f
  induction f with
  | zero => intro s h; exact spec_no_push rfl (le_refl _) h
  | succ f ih =>
    intro s h
    simp only [consumeLine]
    split
    · exact spec_no_push rfl (le_refl _) h
    · split
      · split
        · exact spec_no_push rfl (le_refl _) h
        · rename_i hc0 hc13 hpk
          have hlt := byteAt_lt_length (t := t) (i := s.index + 1) (by omega)
          exact spec_no_push rfl (by omega) (by omega)
      · split
        · rename_i hc0 hc13 hws
          have hlt := byteAt_lt_length (t := t) (i := s.index) (by omega)
          exact spec_trans (spec_no_push (i := s.index + 1) rfl (Nat.le_succ _) hlt)
            (ih (adv s) hlt)
        · split
          · rename_i hc0 hc13 hws h35
            have hlt := byteAt_lt_length (t := t) (i := s.index) (by omega)
            exact consumeComment_spec t f hlt
          · exact spec_no_push rfl (le_refl _) h

theorem skipWsComment_spec (t : List Nat) :
    ∀ f s, s.index ≤ t.length → Spec t s (skipWsComment t f s) := by
  intro f
  induction f with
  | zero => intro s h; exact spec_no_push rfl (le_refl _) h
  | succ f ih =>
    intro s h
    simp only [skipWsComment]
    split
    · split
      · exact spec_no_push rfl (le_refl _) h
      · rename_i hc13 hpk
        have hlt := byteAt_lt_length (t := t) (i := s.index + 1) (by omega)
        exact spec_no_push rfl (by omega) (by omega)
    · split
      · rename_i hc13 hws
        have hlt := byteAt_lt_length (t := t) (i := s.index) (by omega)
        exact spec_trans (spec_no_push (i := s.index + 1) rfl (Nat.le_succ _) hlt)
          (ih (adv s) hlt)
      · split
        · rename_i hc13 hws h35
          have hlt := byteAt_lt_length (t := t) (i := s.index) (by omega)
          refine spec_bind (consumeComment_spec t f hlt) fun s1 heq => ?_
          have hsp := consumeComment_spec t f (s := s) hlt
          rw [heq] at hsp
          exact ih s1 hsp.2.2
        · exact spec_no_push rfl (le_refl _) h

end TomlLex

namespace TomlLex

@[simp] theorem adv_index (s : St) : (adv s).index = s.index + 1 := rfl
@[simp] theorem adv_symbols (s : St) : (adv s).symbols = s.symbols := rfl
@[simp] theorem jump_index (s : St) (i : Nat) : (jump s i).index = i := rfl
@[simp] theorem jump_symbols (s : St) (i : Nat) : (jump s i).symbols = s.symbols := rfl
@[simp] theorem push_index (s : St) (sym : Sym) : (push s sym).index = s.index := rfl
@[simp] theorem push_symbols (s : St) (sym : Sym) :
    (push s sym).symbols = s.symbols ++ [Symbol.new sym s.index] := rfl
@[simp] theorem pushSpan_index (s : St) (sym : Sym) (lo hi : Nat) :
    (pushSpan s sym lo hi).index = s.index := rfl
@[simp] theorem pushSpan_symbols (s : St) (sym : Sym) (lo hi : Nat) :
    (pushSpan s sym lo hi).symbols = s.symbols ++ [Symbol.withSpan sym lo hi] := rfl
@[simp] theorem state_ok (s : St) : R.state (.ok s) = s := rfl
@[simp] theorem state_err (e : LexError) (s : St) : R.state (.err e s) = s := rfl
@[simp] theorem state_panic (s : St) : R.state (.panic s) = s := rfl
@[simp] theorem state_fuelOut (s : St) : R.state (.fuelOut s) = s := rfl
@[simp] theorem withSpan_sym (sym : Sym) (lo hi : Nat) : (Symbol.withSpan sym lo hi).sym = sym := rfl
@[simp] theorem new_sym (sym : Sym) (pos : Nat) : (Symbol.new sym pos).sym = sym := rfl

theorem okSpan_withSpan {n lo hi : Nat} (sym : Sym) (h1 : lo ≤ hi + 1) (h2 : hi ≤ n) :
    okSpan n (Symbol.withSpan sym lo hi) := ⟨h1, Nat.succ_le_succ h2⟩

theorem okSpan_new {n pos : Nat} (sym : Sym) (h : pos ≤ n) :
    okSpan n (Symbol.new sym pos) := ⟨Nat.le_succ _, Nat.succ_le_succ h⟩

theorem findTriple_lt : ∀ (l : List Nat) (i : Nat), findTriple l = some i → i + 2 < l.length := by
  intro l
  induction l with
  | nil => intro i h; simp [findTriple] at h
  | cons a rest ih =>
    intro i h
    simp only [findTriple] at h
    split at h
    · rename_i hcond
      obtain ⟨h39, hh, ht⟩ := hcond
      match rest, hh, ht with
      | b :: r2, hh, ht =>
        match r2, ht with
        | c :: r3, ht =>
          simp only [Option.some.injEq] at h
          simp only [List.length_cons]
          omega
    · rw [Option.map_eq_some'] at h
      obtain ⟨j, hj, hji⟩ := h
      have := ih j hj
      simp only [List.length_cons]
      omega

theorem findLit_lt : ∀ (l : List Nat) (i : Nat), findLit l = some i → i < l.length := by
  intro l
  induction l with
  | nil => intro i h; simp [findLit] at h
  | cons a rest ih =>
    intro i h
    simp only [findLit] at h
    split at h
    · simp only [Option.some.injEq] at h
      simp only [List.length_cons]
      omega
    · rw [Option.map_eq_some'] at h
      obtain ⟨j, hj, hji⟩ := h
      have := ih j hj
      simp only [List.length_cons]
      omega

theorem scanKeyLoop_spec (t : List Nat) :
    ∀ f s, s.index < t.length → Spec t s (scanKeyLoop t f s) := by
  intro f
  induction f with
  | zero => intro s h; exact spec_no_push rfl (le_refl _) (le_of_lt h)
  | succ f ih =>
    intro s h
    simp only [scanKeyLoop]
    split
    · rename_i hkb
      have hlt := byteAt_lt_length (isKeyByte_ne_zero hkb)
      simp only [adv_index] at hlt
      exact spec_trans (spec_no_push (i := s.index + 1) rfl (Nat.le_succ _) (le_of_lt hlt))
        (ih (adv s) hlt)
    · split
      · exact spec_no_push rfl (Nat.le_succ _) (by omega)
      · exact spec_no_push rfl (Nat.le_succ _) (by omega)

theorem scanKey_spec (t : List Nat) (f : Nat) {s : St} (h : s.index < t.length) :
    Spec t s (scanKey t f s) := by
  unfold scanKey
  refine spec_bind (scanKeyLoop_spec t f s h) fun s1 heq => ?_
  have hsp := scanKeyLoop_spec t f s h
  rw [heq] at hsp
  obtain ⟨-, hi1, hi2⟩ := hsp
  simp only [state_ok] at hi1 hi2
  exact spec_mk (x := Symbol.withSpan .key s.index (s1.index - 1)) (by simp)
    (okSpan_withSpan _ (by omega) (by omega))
    (by omega) (by omega)

theorem scanBasicLoop_char (t : List Nat) (start : Nat) :
    ∀ f slash s s', scanBasicLoop t start f slash s = .ok s' →
      byteAt t s'.index = 34 ∧ s'.symbols = s.symbols ∧ s.index ≤ s'.index := by
  intro f
  induction f with
  | zero => intro slash s s' h; simp [scanBasicLoop] at h
  | succ f ih =>
    intro slash s s' h
    simp only [scanBasicLoop] at h
    split at h
    · split at h
      · rename_i h34 hev
        simp only [R.ok.injEq] at h
        subst h
        exact ⟨h34, rfl, le_refl _⟩
      · have := ih 0 (adv s) s' h
        exact ⟨this.1, this.2.1, by have := this.2.2; simp only [adv_index] at this; omega⟩
    · split at h
      · have := ih (slash + 1) (adv s) s' h
        exact ⟨this.1, this.2.1, by have := this.2.2; simp only [adv_index] at this; omega⟩
      · split at h
        · simp at h
        · have := ih 0 (adv s) s' h
          exact ⟨this.1, this.2.1, by have := this.2.2; simp only [adv_index] at this; omega⟩

theorem scanBasicLoop_spec (t : List Nat) (start : Nat) :
    ∀ f slash s, s.index ≤ t.length → Spec t s (scanBasicLoop t start f slash s) := by
  intro f
  induction f with
  | zero => intro slash s h; exact spec_no_push rfl (le_refl _) h
  | succ f ih =>
    intro slash s h
    simp only [scanBasicLoop]
    split
    · split
      · exact spec_no_push rfl (le_refl _) h
      · rename_i h34 hev
        have hlt := byteAt_lt_length (t := t) (i := s.index) (by omega)
        exact spec_trans (spec_no_push (i := s.index + 1) rfl (Nat.le_succ _) hlt)
          (ih 0 (adv s) hlt)
    · split
      · rename_i h34 h92
        have hlt := byteAt_lt_length (t := t) (i := s.index) (by omega)
        exact spec_trans (spec_no_push (i := s.index + 1) rfl (Nat.le_succ _) hlt)
          (ih (slash + 1) (adv s) hlt)
      · split
        · exact spec_no_push rfl (le_refl _) h
        · rename_i h34 h92 h10
          have hlt := byteAt_lt_length (t := t) (i := s.index) (by omega)
          exact spec_trans (spec_no_push (i := s.index + 1) rfl (Nat.le_succ _) hlt)
            (ih 0 (adv s) hlt)

theorem scanBasicString_spec (t : List Nat) (f : Nat) {s : St}
    (h : byteAt t s.index ≠ 0) : Spec t s (scanBasicString t f s) := by
  have hlt := byteAt_lt_length h
  unfold scanBasicString
  refine spec_trans (spec_no_push (i := s.index + 1) rfl (Nat.le_succ _) hlt) ?_
  refine spec_bind (scanBasicLoop_spec t (adv s).index f 0 (adv s) (by simp; omega)) fun s2 heq => ?_
  have hsp := scanBasicLoop_spec t (adv s).index f 0 (adv s) (by simp; omega)
  rw [heq] at hsp
  obtain ⟨-, hi1, hi2⟩ := hsp
  simp only [state_ok, adv_index] at hi1 hi2
  have h34 := (scanBasicLoop_char t (adv s).index f 0 (adv s) s2 heq).1
  have hq := byteAt_lt_length (t := t) (i := s2.index) (by omega)
  exact spec_mk (x := Symbol.withSpan .str (adv s).index s2.index) (by simp)
    (okSpan_withSpan _ (by simp; omega) (by omega))
    (by first | omega | (simp only [pushSpan_index, adv_index]; omega))
    (by first | omega | (simp only [pushSpan_index, adv_index]; omega))

theorem scanBasicString_char (t : List Nat) (f : Nat) (s s' : St)
    (hok : scanBasicString t f s = .ok s') :
    ∃ q, byteAt t q = 34 ∧ s.index + 1 ≤ q ∧
      s'.symbols = s.symbols ++ [Symbol.withSpan Sym.str (s.index + 1) q] ∧
      s'.index = q + 1 := by
  simp only [scanBasicString] at hok
  cases hl : scanBasicLoop t (adv s).index f 0 (adv s) with
  | ok s2 =>
    rw [hl] at hok
    simp only [andThen, R.ok.injEq] at hok
    obtain ⟨h34, hsym, hmono⟩ := scanBasicLoop_char t (adv s).index f 0 (adv s) s2 hl
    refine ⟨s2.index, h34, by simp only [adv_index] at hmono; omega, ?_, ?_⟩
    · rw [← hok]
      simp [hsym]
    · rw [← hok]
      simp
  | err e s2 => rw [hl] at hok; simp [andThen] at hok
  | panic s2 => rw [hl] at hok; simp [andThen] at hok
  | fuelOut s2 => rw [hl] at hok; simp [andThen] at hok

theorem scanMLBasicLoop_spec (t : List Nat) (start : Nat) :
    ∀ f qc slash s, s.index ≤ t.length → start + qc ≤ s.index →
      Spec t s (scanMLBasicLoop t start f qc slash s) := by
  intro f
  induction f with
  | zero => intro qc slash s h hq; exact spec_no_push rfl (le_refl _) h
  | succ f ih =>
    intro qc slash s h hq
    simp only [scanMLBasicLoop]
    split
    · rename_i h34
      have hlt := byteAt_lt_length (t := t) (i := s.index) (by omega)
      split
      · exact spec_trans (spec_no_push (i := s.index + 1) rfl (Nat.le_succ _) hlt)
          (ih (qc + 1) 0 (adv s) hlt (by simp; omega))
      · exact spec_trans (spec_no_push (i := s.index + 1) rfl (Nat.le_succ _) hlt)
          (ih 0 0 (adv s) hlt (by simp; omega))
    · split
      · rename_i h34 h92
        have hlt := byteAt_lt_length (t := t) (i := s.index) (by omega)
        split
        · exact spec_trans (spec_no_push (i := s.index + 1) rfl (Nat.le_succ _) hlt)
            (ih 0 (slash + 1) (adv s) hlt (by simp; omega))
        · split
          · rename_i hq2 hq5
            exact spec_mk (x := Symbol.withSpan .str start (s.index - (qc - 3)))
              (by simp) (okSpan_withSpan _ (by omega) (by omega))
              (by omega) (by omega)
          · exact spec_no_push rfl (le_refl _) h
      · split
        · rename_i h34 h92 hq35
          exact spec_mk (x := Symbol.withSpan .str start (s.index - (qc - 3)))
            (by simp) (okSpan_withSpan _ (by omega) (by omega))
            (by omega) (by omega)
        · split
          · exact spec_no_push rfl (le_refl _) h
          · split
            · exact spec_no_push rfl (le_refl _) h
            · rename_i h34 h92 hq35 hq6 hc0
              have hlt := byteAt_lt_length (t := t) (i := s.index) hc0
              exact spec_trans (spec_no_push (i := s.index + 1) rfl (Nat.le_succ _) hlt)
                (ih 0 slash (adv s) hlt (by simp; omega))

theorem scanMultilineBasicString_spec (t : List Nat) (f : Nat) {s : St}
    (h : byteAt t (s.index + 2) ≠ 0) : Spec t s (scanMultilineBasicString t f s) := by
  have hlt := byteAt_lt_length h
  unfold scanMultilineBasicString
  exact spec_trans (spec_no_push (i := s.index + 3) rfl (by omega) (by omega))
    (scanMLBasicLoop_spec t (jump s (s.index + 3)).index f 0 0 (jump s (s.index + 3))
      (by simp; omega) (by simp))

end TomlLex

namespace TomlLex

theorem scanMultilineLiteralString_spec (t : List Nat) (f : Nat) {s : St}
    (h : byteAt t (s.index + 2) ≠ 0) : Spec t s (scanMultilineLiteralString t f s) := by
  have hlt := byteAt_lt_length h
  simp only [scanMultilineLiteralString, jump_index, adv_index, pushSpan_index]
  split
  · rename_i j hft
    have hb := findTriple_lt _ j hft
    rw [List.length_drop] at hb
    split
    · rename_i h39a
      have hq1 := byteAt_lt_length (t := t) (i := s.index + 3 + j + 3) (by rw [h39a]; omega)
      split
      · rename_i h39b
        have hq2 := byteAt_lt_length (t := t) (i := s.index + 3 + j + 3 + 1) (by rw [h39b]; omega)
        split
        · exact spec_no_push (i := s.index + 3 + j + 3 + 1 + 1) rfl (by omega) (by omega)
        · exact spec_mk (i := s.index + 3 + j + 3 + 1 + 1)
            (x := Symbol.withSpan .str (s.index + 3) (s.index + 3 + j + 3 + 1 + 1 - 3))
            (by simp) (okSpan_withSpan _ (by omega) (by omega)) (by omega) (by omega)
      · exact spec_mk (i := s.index + 3 + j + 3 + 1)
          (x := Symbol.withSpan .str (s.index + 3) (s.index + 3 + j + 3 + 1 - 3))
          (by simp) (okSpan_withSpan _ (by omega) (by omega)) (by omega) (by omega)
    · exact spec_mk (i := s.index + 3 + j + 3)
        (x := Symbol.withSpan .str (s.index + 3) (s.index + 3 + j + 3 - 3))
        (by simp) (okSpan_withSpan _ (by omega) (by omega)) (by omega) (by omega)
  · exact spec_no_push (i := s.index + 3) rfl (by omega) (by omega)

theorem scanLiteralString_spec (t : List Nat) (f : Nat) {s : St}
    (h : byteAt t s.index ≠ 0) : Spec t s (scanLiteralString t f s) := by
  have hlt := byteAt_lt_length h
  simp only [scanLiteralString, jump_index, pushSpan_index]
  split
  · rename_i j hfl
    have hb := findLit_lt _ j hfl
    rw [List.length_drop] at hb
    split
    · exact spec_mk (i := s.index + 1 + j + 1)
        (x := Symbol.withSpan .str (s.index + 1) (s.index + 1 + j - 1))
        (by simp) (okSpan_withSpan _ (by omega) (by omega)) (by omega) (by omega)
    · exact spec_no_push (i := s.index + 1 + j + 1) rfl (by omega) (by omega)
  · exact spec_no_push (i := s.index + 1) rfl (by omega) (by omega)

theorem scanLiteralString_char (t : List Nat) (f : Nat) (s s' : St)
    (hok : scanLiteralString t f s = .ok s') :
    ∃ i, byteAt t (s.index + 1 + i) = 39 ∧
      s'.symbols = s.symbols ++ [Symbol.withSpan Sym.str (s.index + 1) (s.index + 1 + i - 1)] ∧
      s'.index = s.index + 1 + i + 1 := by
  simp only [scanLiteralString] at hok
  split at hok
  · rename_i i hfl
    split at hok
    · rename_i h39
      simp only [R.ok.injEq] at hok
      subst hok
      exact ⟨i, h39, by simp, by simp⟩
    · simp at hok
  · simp at hok

theorem scanString_spec (t : List Nat) (f : Nat) {s : St}
    (h : byteAt t s.index ≠ 0) : Spec t s (scanString t f s) := by
  simp only [scanString]
  split
  · rename_i hc
    exact scanMultilineLiteralString_spec t f (by rw [hc.2.2]; omega)
  · split
    · rename_i hc1 hc
      exact scanMultilineBasicString_spec t f (by rw [hc.2.2]; omega)
    · split
      · exact scanLiteralString_spec t f h
      · split
        · exact scanBasicString_spec t f h
        · exact spec_no_push rfl (le_refl _) (le_of_lt (byteAt_lt_length h))

theorem scanSingleLineString_spec (t : List Nat) (f : Nat) {s : St}
    (h : byteAt t s.index ≠ 0) : Spec t s (scanSingleLineString t f s) := by
  have hlt := byteAt_lt_length h
  simp only [scanSingleLineString]
  split
  · exact spec_no_push rfl (le_refl _) (by omega)
  · split
    · exact spec_no_push rfl (le_refl _) (by omega)
    · split
      · exact scanLiteralString_spec t f h
      · split
        · exact scanBasicString_spec t f h
        · exact spec_no_push rfl (le_refl _) (by omega)

theorem scanHexLoop_spec (t : List Nat) :
    ∀ f allow s, s.index ≤ t.length → Spec t s (scanHexLoop t f allow s) := by
  intro f
  induction f with
  | zero => intro allow s h; exact spec_no_push rfl (le_refl _) h
  | succ f ih =>
    intro allow s h
    simp only [scanHexLoop]
    split
    · rename_i hd
      have hlt := byteAt_lt_length (t := t) (i := s.index) (by omega)
      exact spec_trans (spec_no_push (i := s.index + 1) rfl (Nat.le_succ _) hlt)
        (ih true (adv s) hlt)
    · split
      · split
        · exact spec_no_push rfl (le_refl _) h
        · exact ih false s h
      · split
        · exact spec_no_push rfl (le_refl _) h
        · exact spec_no_push rfl (le_refl _) h

theorem scanOctLoop_spec (t : List Nat) :
    ∀ f allow s, s.index ≤ t.length → Spec t s (scanOctLoop t f allow s) := by
  intro f
  induction f with
  | zero => intro allow s h; exact spec_no_push rfl (le_refl _) h
  | succ f ih =>
    intro allow s h
    simp only [scanOctLoop]
    split
    · rename_i hd
      have hlt := byteAt_lt_length (t := t) (i := s.index) (by omega)
      exact spec_trans (spec_no_push (i := s.index + 1) rfl (Nat.le_succ _) hlt)
        (ih true (adv s) hlt)
    · split
      · split
        · exact spec_no_push rfl (le_refl _) h
        · rename_i hd h95 hal
          have hlt := byteAt_lt_length (t := t) (i := s.index) (by omega)
          exact spec_trans (spec_no_push (i := s.index + 1) rfl (Nat.le_succ _) hlt)
            (ih false (adv s) hlt)
      · split
        · exact spec_no_push rfl (le_refl _) h
        · exact spec_no_push rfl (le_refl _) h

theorem scanBinLoop_spec (t : List Nat) :
    ∀ f allow s, s.index ≤ t.length → Spec t s (scanBinLoop t f allow s) := by
  intro f
  induction f with
  | zero => intro allow s h; exact spec_no_push rfl (le_refl _) h
  | succ f ih =>
    intro allow s h
    simp only [scanBinLoop]
    split
    · rename_i hd
      have hlt := byteAt_lt_length (t := t) (i := s.index) (by omega)
      exact spec_trans (spec_no_push (i := s.index + 1) rfl (Nat.le_succ _) hlt)
        (ih true (adv s) hlt)
    · split
      · split
        · exact spec_no_push rfl (le_refl _) h
        · rename_i hd h95 hal
          have hlt := byteAt_lt_length (t := t) (i := s.index) (by omega)
          exact spec_trans (spec_no_push (i := s.index + 1) rfl (Nat.le_succ _) hlt)
            (ih false (adv s) hlt)
      · split
        · exact spec_no_push rfl (le_refl _) h
        · exact spec_no_push rfl (le_refl _) h

theorem scanDecLoop_spec (t : List Nat) :
    ∀ f allow s, s.index ≤ t.length → Spec t s (scanDecLoop t f allow s) := by
  intro f
  induction f with
  | zero => intro allow s h; exact spec_no_push rfl (le_refl _) h
  | succ f ih =>
    intro allow s h
    simp only [scanDecLoop]
    split
    · rename_i hd
      have hlt := byteAt_lt_length (t := t) (i := s.index) (by omega)
      exact spec_trans (spec_no_push (i := s.index + 1) rfl (Nat.le_succ _) hlt)
        (ih true (adv s) hlt)
    · split
      · split
        · exact spec_no_push rfl (le_refl _) h
        · rename_i hd h95 hal
          have hlt := byteAt_lt_length (t := t) (i := s.index) (by omega)
          exact spec_trans (spec_no_push (i := s.index + 1) rfl (Nat.le_succ _) hlt)
            (ih false (adv s) hlt)
      · split
        · exact spec_no_push rfl (le_refl _) h
        · exact spec_no_push rfl (le_refl _) h

theorem scanNumberOrDate_spec (t : List Nat) (f : Nat) {s : St} (h : s.index ≤ t.length) :
    Spec t s (scanNumberOrDate t f s) := spec_no_push rfl (le_refl _) h

end TomlLex

namespace TomlLex

theorem spec_int_push {t : List Nat} {s : St} {r : R} (start : Nat)
    (hr : Spec t s r) (hstart : start ≤ s.index) :
    Spec t s (andThen r fun s2 => .ok (pushSpan s2 .integer start (s2.index - 1))) := by
  refine spec_bind hr fun s2 heq => ?_
  have hsp := hr
  rw [heq] at hsp
  obtain ⟨-, hi1, hi2⟩ := hsp
  simp only [state_ok] at hi1 hi2
  exact spec_mk (i := s2.index) (x := Symbol.withSpan .integer start (s2.index - 1))
    (by simp) (okSpan_withSpan _ (by omega) (by omega)) (by omega) (by omega)

theorem scanNumber_spec (t : List Nat) (f : Nat) {s : St} (h : s.index ≤ t.length) :
    Spec t s (scanNumber t f s) := by
  simp only [scanNumber]
  by_cases hsig : byteAt t s.index = 45 ∨ byteAt t s.index = 43
  · have hlt := byteAt_lt_length (t := t) (i := s.index) (by omega)
    simp only [if_pos hsig, adv_index, jump_index]
    split
    · rename_i hx
      have hq1 := byteAt_lt_length (t := t) (i := s.index + 1) (by omega)
      have hq2 := byteAt_lt_length (t := t) (i := s.index + 1 + 1) (by omega)
      exact spec_int_push s.index
        (spec_trans (spec_no_push (i := s.index + 1 + 2) rfl (by omega) (by omega))
          (scanHexLoop_spec t f false _ (by simp only [jump_index]; omega))) (le_refl _)
    · split
      · rename_i hx ho
        have hq1 := byteAt_lt_length (t := t) (i := s.index + 1) (by omega)
        have hq2 := byteAt_lt_length (t := t) (i := s.index + 1 + 1) (by omega)
        exact spec_int_push s.index
          (spec_trans (spec_no_push (i := s.index + 1 + 2) rfl (by omega) (by omega))
            (scanOctLoop_spec t f false _ (by simp only [jump_index]; omega))) (le_refl _)
      · split
        · rename_i hx ho hbn
          have hq1 := byteAt_lt_length (t := t) (i := s.index + 1) (by omega)
          have hq2 := byteAt_lt_length (t := t) (i := s.index + 1 + 1) (by omega)
          exact spec_int_push s.index
            (spec_trans (spec_no_push (i := s.index + 1 + 2) rfl (by omega) (by omega))
              (scanBinLoop_spec t f false _ (by simp only [jump_index]; omega))) (le_refl _)
        · exact spec_int_push s.index
            (spec_trans (spec_no_push (i := s.index + 1) rfl (by omega) (by omega))
              (scanDecLoop_spec t f false _ (by simp only [adv_index]; omega))) (le_refl _)
  · simp only [if_neg hsig, jump_index]
    split
    · rename_i hx
      have hq1 := byteAt_lt_length (t := t) (i := s.index) (by omega)
      have hq2 := byteAt_lt_length (t := t) (i := s.index + 1) (by omega)
      exact spec_int_push s.index
        (spec_trans (spec_no_push (i := s.index + 2) rfl (by omega) (by omega))
          (scanHexLoop_spec t f false _ (by simp only [jump_index]; omega))) (le_refl _)
    · split
      · rename_i hx ho
        have hq1 := byteAt_lt_length (t := t) (i := s.index) (by omega)
        have hq2 := byteAt_lt_length (t := t) (i := s.index + 1) (by omega)
        exact spec_int_push s.index
          (spec_trans (spec_no_push (i := s.index + 2) rfl (by omega) (by omega))
            (scanOctLoop_spec t f false _ (by simp only [jump_index]; omega))) (le_refl _)
      · split
        · rename_i hx ho hbn
          have hq1 := byteAt_lt_length (t := t) (i := s.index) (by omega)
          have hq2 := byteAt_lt_length (t := t) (i := s.index + 1) (by omega)
          exact spec_int_push s.index
            (spec_trans (spec_no_push (i := s.index + 2) rfl (by omega) (by omega))
              (scanBinLoop_spec t f false _ (by simp only [jump_index]; omega))) (le_refl _)
        · exact spec_int_push s.index (scanDecLoop_spec t f false s h) (le_refl _)

theorem scanDottedLoop_spec (t : List Nat) :
    ∀ f saw s, s.index ≤ t.length → Spec t s (scanDottedLoop t f saw s) := by
  intro f
  induction f with
  | zero => intro saw s h; exact spec_no_push rfl (le_refl _) h
  | succ f ih =>
    intro saw s h
    simp only [scanDottedLoop]
    refine spec_bind (skipWs_spec t f s h) fun s1 heq => ?_
    have hsp := skipWs_spec t f s h
    rw [heq] at hsp
    obtain ⟨-, hi1, hi2⟩ := hsp
    simp only [state_ok] at hi1 hi2
    split
    · split
      · exact spec_no_push rfl (le_refl _) hi2
      · exact spec_no_push rfl (le_refl _) hi2
    · split
      · exact spec_no_push rfl (le_refl _) hi2
      · split
        · split
          · exact spec_no_push rfl (le_refl _) hi2
          · rename_i hc13 hc10 hc46 hsaw
            have hlt := byteAt_lt_length (t := t) (i := s1.index) (by omega)
            exact spec_trans (spec_no_push (i := s1.index + 1) rfl (Nat.le_succ _) hlt)
              (ih true (adv s1) hlt)
        · split
          · split
            · exact spec_no_push rfl (le_refl _) hi2
            · rename_i hc13 hc10 hc46 hc61 hsaw
              have hlt := byteAt_lt_length (t := t) (i := s1.index) (by omega)
              exact spec_mk (i := s1.index + 1) (x := Symbol.new .assign s1.index)
                (by simp) (okSpan_new _ (by omega)) (by omega) (by omega)
          · split
            · split
              · rename_i hc13 hc10 hc46 hc61 hq hsaw
                have hne : byteAt t s1.index ≠ 0 := by omega
                refine spec_bind (scanString_spec t f hne) fun s2 heq2 => ?_
                have hsp2 := scanString_spec t f (s := s1) hne
                rw [heq2] at hsp2
                exact ih false s2 hsp2.2.2
              · exact spec_no_push rfl (le_refl _) hi2
            · split
              · split
                · rename_i hc13 hc10 hc46 hc61 hq hkb hsaw
                  have hlt := byteAt_lt_length (isKeyByte_ne_zero hkb)
                  refine spec_bind (scanKey_spec t f hlt) fun s2 heq2 => ?_
                  have hsp2 := scanKey_spec t f (s := s1) hlt
                  rw [heq2] at hsp2
                  exact ih false s2 hsp2.2.2
                · exact spec_no_push rfl (le_refl _) hi2
              · exact spec_no_push rfl (le_refl _) hi2

theorem scanDotted_spec (t : List Nat) (f : Nat) {s : St} (h : s.index ≤ t.length) :
    Spec t s (scanDotted t f s) := scanDottedLoop_spec t f false s h

theorem scanKeyLike_spec (t : List Nat) (f : Nat) {s : St} (h : s.index ≤ t.length) :
    Spec t s (scanKeyLike t f s) := by
  simp only [scanKeyLike]
  split
  · rename_i hq
    have hne : byteAt t s.index ≠ 0 := by omega
    refine spec_bind (scanString_spec t f hne) fun s1 heq => ?_
    have hsp := scanString_spec t f (s := s) hne
    rw [heq] at hsp
    exact scanDotted_spec t f hsp.2.2
  · split
    · rename_i hq hkb
      have hlt := byteAt_lt_length (isKeyByte_ne_zero hkb)
      refine spec_bind (scanKey_spec t f hlt) fun s1 heq => ?_
      have hsp := scanKey_spec t f (s := s) hlt
      rw [heq] at hsp
      exact scanDotted_spec t f hsp.2.2
    · exact spec_no_push rfl (le_refl _) h

end TomlLex

namespace TomlLex

theorem cluster_spec (t : List Nat) : ∀ f,
    (∀ s, s.index ≤ t.length → Spec t s (scanValue t f s)) ∧
    (∀ s, byteAt t s.index ≠ 0 → Spec t s (scanArray t f s)) ∧
    (∀ s, s.index ≤ t.length → Spec t s (scanArrayLoop t f s)) ∧
    (∀ s, byteAt t s.index ≠ 0 → Spec t s (scanInlineTable t f s)) ∧
    (∀ s, s.index ≤ t.length → Spec t s (scanInlineTableLoop t f s)) := by
  intro f
  induction f with
  | zero =>
    refine ⟨fun s h => ?_, fun s h => ?_, fun s h => ?_, fun s h => ?_, fun s h => ?_⟩
    · simp only [scanValue]; exact spec_no_push rfl (le_refl _) h
    · simp only [scanArray]
      exact spec_no_push rfl (le_refl _) (le_of_lt (byteAt_lt_length h))
    · simp only [scanArrayLoop]; exact spec_no_push rfl (le_refl _) h
    · simp only [scanInlineTable]
      exact spec_no_push rfl (le_refl _) (le_of_lt (byteAt_lt_length h))
    · simp only [scanInlineTableLoop]; exact spec_no_push rfl (le_refl _) h
  | succ f ih =>
    obtain ⟨ihV, ihA, ihAL, ihI, ihIL⟩ := ih
    refine ⟨fun s h => ?_, fun s h => ?_, fun s h => ?_, fun s h => ?_, fun s h => ?_⟩
    · -- scanValue
      simp only [scanValue]
      split
      · rename_i hq
        exact scanString_spec t f (by omega)
      · split
        · rename_i hq h123
          exact ihI s (by omega)
        · split
          · rename_i hq h123 h91
            exact ihA s (by omega)
          · split
            · split
              · rename_i htf htrue
                obtain ⟨hb0, hb1, hb2, hb3⟩ := htrue
                have hq3 := byteAt_lt_length (t := t) (i := s.index + 3) (by omega)
                exact spec_mk (i := s.index + 4)
                  (x := Symbol.withSpan .bool s.index (s.index + 4)) (by simp)
                  (okSpan_withSpan _ (by omega) (by omega)) (by omega) (by omega)
              · split
                · rename_i htf htrue hfalse
                  obtain ⟨hb0, hb1, hb2, hb3, hb4⟩ := hfalse
                  have hq4 := byteAt_lt_length (t := t) (i := s.index + 4) (by omega)
                  exact spec_mk (i := s.index + 5)
                    (x := Symbol.withSpan .bool s.index (s.index + 5)) (by simp)
                    (okSpan_withSpan _ (by omega) (by omega)) (by omega) (by omega)
                · exact spec_no_push rfl (le_refl _) h
            · split
              · split
                · rename_i htf hin hdrop
                  have hlen : t.length = s.index + 3 := by
                    rcases hdrop with hd | hd <;>
                    · have hd2 := congrArg List.length hd
                      rw [List.length_drop] at hd2
                      simp only [List.length_cons, List.length_nil] at hd2
                      omega
                  exact spec_mk (i := s.index + 3)
                    (x := Symbol.withSpan .float s.index (s.index + 3)) (by simp)
                    (okSpan_withSpan _ (by omega) (by omega)) (by omega) (by omega)
                · exact spec_no_push rfl (le_refl _) h
              · split
                · exact scanNumber_spec t f h
                · split
                  · exact scanNumberOrDate_spec t f h
                  · exact spec_no_push rfl (le_refl _) h
    · -- scanArray
      have hlt := byteAt_lt_length h
      simp only [scanArray]
      refine spec_trans (spec_mk (i := s.index + 1) (x := Symbol.new .array s.index)
        (by simp) (okSpan_new _ (by omega)) (by omega) (by omega)) ?_
      refine spec_bind (skipWsComment_spec t f (adv (push s .array))
        (by simp only [adv_index, push_index]; omega)) fun s2 heq => ?_
      have hsp := skipWsComment_spec t f (adv (push s .array))
        (by simp only [adv_index, push_index]; omega)
      rw [heq] at hsp
      obtain ⟨-, hj1, hj2⟩ := hsp
      simp only [state_ok] at hj1 hj2
      split
      · rename_i h93
        have hlt2 := byteAt_lt_length (t := t) (i := s2.index) (by omega)
        exact spec_mk (i := s2.index + 1) (x := Symbol.new .arrayEnd s2.index) (by simp)
          (okSpan_new _ (by omega)) (by omega) (by omega)
      · refine spec_bind (ihV s2 hj2) fun s3 heq3 => ?_
        have hsp3 := ihV s2 hj2
        rw [heq3] at hsp3
        exact ihAL s3 hsp3.2.2
    · -- scanArrayLoop
      simp only [scanArrayLoop]
      refine spec_bind (skipWsComment_spec t f s h) fun s1 heq => ?_
      have hsp := skipWsComment_spec t f s h
      rw [heq] at hsp
      obtain ⟨-, hi1, hi2⟩ := hsp
      simp only [state_ok] at hi1 hi2
      split
      · rename_i h44
        have hlt := byteAt_lt_length (t := t) (i := s1.index) (by omega)
        refine spec_trans (spec_no_push (i := s1.index + 1) rfl (Nat.le_succ _) hlt) ?_
        refine spec_bind (skipWsComment_spec t f (adv s1) hlt) fun s2 heq2 => ?_
        have hsp2 := skipWsComment_spec t f (adv s1) hlt
        rw [heq2] at hsp2
        obtain ⟨-, hj1, hj2⟩ := hsp2
        simp only [state_ok] at hj1 hj2
        split
        · rename_i h93
          have hlt2 := byteAt_lt_length (t := t) (i := s2.index) (by omega)
          exact spec_mk (i := s2.index + 1) (x := Symbol.new .arrayEnd s2.index) (by simp)
            (okSpan_new _ (by omega)) (by omega) (by omega)
        · refine spec_bind (ihV s2 hj2) fun s3 heq3 => ?_
          have hsp3 := ihV s2 hj2
          rw [heq3] at hsp3
          exact ihAL s3 hsp3.2.2
      · split
        · rename_i h44 h93
          have hlt := byteAt_lt_length (t := t) (i := s1.index) (by omega)
          exact spec_mk (i := s1.index + 1) (x := Symbol.new .arrayEnd s1.index) (by simp)
            (okSpan_new _ (by omega)) (by omega) (by omega)
        · exact spec_no_push rfl (le_refl _) hi2
    · -- scanInlineTable
      have hlt := byteAt_lt_length h
      simp only [scanInlineTable]
      refine spec_trans (spec_mk (i := s.index + 1) (x := Symbol.new .inlineTable s.index)
        (by simp) (okSpan_new _ (by omega)) (by omega) (by omega)) ?_
      refine spec_bind (skipWs_spec t f (adv (push s .inlineTable))
        (by simp only [adv_index, push_index]; omega)) fun s2 heq => ?_
      have hsp := skipWs_spec t f (adv (push s .inlineTable))
        (by simp only [adv_index, push_index]; omega)
      rw [heq] at hsp
      obtain ⟨-, hj1, hj2⟩ := hsp
      simp only [state_ok] at hj1 hj2
      split
      · rename_i h125
        have hlt2 := byteAt_lt_length (t := t) (i := s2.index) (by omega)
        exact spec_mk (i := s2.index + 1) (x := Symbol.new .inlineTableEnd (s2.index + 1))
          (by simp) (okSpan_new _ (by omega)) (by omega) (by omega)
      · refine spec_bind (scanKeyLike_spec t f hj2) fun s3 heq3 => ?_
        have hsp3 := scanKeyLike_spec t f (s := s2) hj2
        rw [heq3] at hsp3
        refine spec_bind (skipWs_spec t f s3 hsp3.2.2) fun s4 heq4 => ?_
        have hsp4 := skipWs_spec t f s3 hsp3.2.2
        rw [heq4] at hsp4
        refine spec_bind (ihV s4 hsp4.2.2) fun s5 heq5 => ?_
        have hsp5 := ihV s4 hsp4.2.2
        rw [heq5] at hsp5
        exact ihIL s5 hsp5.2.2
    · -- scanInlineTableLoop
      simp only [scanInlineTableLoop]
      refine spec_bind (skipWs_spec t f s h) fun s1 heq => ?_
      have hsp := skipWs_spec t f s h
      rw [heq] at hsp
      obtain ⟨-, hi1, hi2⟩ := hsp
      simp only [state_ok] at hi1 hi2
      split
      · rename_i h44
        have hlt := byteAt_lt_length (t := t) (i := s1.index) (by omega)
        refine spec_trans (spec_no_push (i := s1.index + 1) rfl (Nat.le_succ _) hlt) ?_
        refine spec_bind (skipWs_spec t f (adv s1) hlt) fun s2 heq2 => ?_
        have hsp2 := skipWs_spec t f (adv s1) hlt
        rw [heq2] at hsp2
        obtain ⟨-, hj1, hj2⟩ := hsp2
        simp only [state_ok] at hj1 hj2
        refine spec_bind (scanKeyLike_spec t f hj2) fun s3 heq3 => ?_
        have hsp3 := scanKeyLike_spec t f (s := s2) hj2
        rw [heq3] at hsp3
        refine spec_bind (skipWs_spec t f s3 hsp3.2.2) fun s4 heq4 => ?_
        have hsp4 := skipWs_spec t f s3 hsp3.2.2
        rw [heq4] at hsp4
        refine spec_bind (ihV s4 hsp4.2.2) fun s5 heq5 => ?_
        have hsp5 := ihV s4 hsp4.2.2
        rw [heq5] at hsp5
        exact ihIL s5 hsp5.2.2
      · split
        · rename_i h44 h125
          have hlt := byteAt_lt_length (t := t) (i := s1.index) (by omega)
          exact spec_mk (i := s1.index + 1) (x := Symbol.new .inlineTableEnd s1.index) (by simp)
            (okSpan_new _ (by omega)) (by omega) (by omega)
        · exact spec_no_push rfl (le_refl _) hi2

theorem scanValue_spec (t : List Nat) (f : Nat) {s : St} (h : s.index ≤ t.length) :
    Spec t s (scanValue t f s) := (cluster_spec t f).1 s h

end TomlLex

namespace TomlLex

theorem scanTableLoop_spec (t : List Nat) :
    ∀ f saw s, s.index ≤ t.length → Spec t s (scanTableLoop t f saw s) := by
  intro f
  induction f with
  | zero => intro saw s h; exact spec_no_push rfl (le_refl _) h
  | succ f ih =>
    intro saw s h
    simp only [scanTableLoop]
    split
    · split
      · exact spec_no_push rfl (le_refl _) h
      · exact spec_no_push rfl (le_refl _) h
    · split
      · exact spec_no_push rfl (le_refl _) h
      · split
        · rename_i h13 h10 hws
          have hlt := byteAt_lt_length (t := t) (i := s.index) (by omega)
          exact spec_trans (spec_no_push (i := s.index + 1) rfl (Nat.le_succ _) hlt)
            (ih saw (adv s) hlt)
        · split
          · split
            · exact spec_no_push rfl (le_refl _) h
            · rename_i h13 h10 hws h46 hsaw
              have hlt := byteAt_lt_length (t := t) (i := s.index) (by omega)
              exact spec_trans (spec_no_push (i := s.index + 1) rfl (Nat.le_succ _) hlt)
                (ih true (adv s) hlt)
          · split
            · split
              · exact spec_no_push rfl (le_refl _) h
              · rename_i h13 h10 hws h46 h93 hsaw
                have hlt := byteAt_lt_length (t := t) (i := s.index) (by omega)
                exact spec_no_push (i := s.index + 1) rfl (Nat.le_succ _) hlt
            · split
              · split
                · rename_i h13 h10 hws h46 h93 hq hsaw
                  have hne : byteAt t s.index ≠ 0 := by omega
                  refine spec_bind (scanSingleLineString_spec t f hne) fun s2 heq2 => ?_
                  have hsp2 := scanSingleLineString_spec t f (s := s) hne
                  rw [heq2] at hsp2
                  exact ih false s2 hsp2.2.2
                · exact spec_no_push rfl (le_refl _) h
              · split
                · split
                  · rename_i h13 h10 hws h46 h93 hq hkb hsaw
                    have hlt := byteAt_lt_length (isKeyByte_ne_zero hkb)
                    refine spec_bind (scanKey_spec t f hlt) fun s2 heq2 => ?_
                    have hsp2 := scanKey_spec t f (s := s) hlt
                    rw [heq2] at hsp2
                    exact ih false s2 hsp2.2.2
                  · exact spec_no_push rfl (le_refl _) h
                · exact spec_no_push rfl (le_refl _) h

theorem scanTable_spec (t : List Nat) (f : Nat) {s : St} (h : byteAt t s.index ≠ 0) :
    Spec t s (scanTable t f s) := by
  have hlt := byteAt_lt_length h
  simp only [scanTable, adv_index, push_index]
  split
  · rename_i h91
    have hlt2 := byteAt_lt_length (t := t) (i := s.index + 1) (by omega)
    refine spec_trans (spec_mk (i := s.index + 2) (x := Symbol.new .arrayOfTable (s.index + 2))
      (by simp) (okSpan_new _ (by omega)) (by omega) (by omega)) ?_
    refine spec_bind (scanTableLoop_spec t f true (push (adv (adv s)) .arrayOfTable)
      (by simp only [push_index, adv_index]; omega)) fun s3 heq => ?_
    have hsp := scanTableLoop_spec t f true (push (adv (adv s)) .arrayOfTable)
      (by simp only [push_index, adv_index]; omega)
    rw [heq] at hsp
    obtain ⟨-, hj1, hj2⟩ := hsp
    simp only [state_ok] at hj1 hj2
    split
    · rename_i h93
      have hlt3 := byteAt_lt_length (t := t) (i := s3.index) (by omega)
      refine spec_trans (spec_no_push (i := s3.index + 1) rfl (Nat.le_succ _) hlt3) ?_
      refine spec_bind (consumeLine_spec t f (adv s3) hlt3) fun s4 heq4 => ?_
      have hsp4 := consumeLine_spec t f (adv s3) hlt3
      rw [heq4] at hsp4
      obtain ⟨-, hk1, hk2⟩ := hsp4
      simp only [state_ok, adv_index] at hk1 hk2
      exact spec_mk (i := s4.index) (x := Symbol.new .tableEnd s4.index) (by simp)
        (okSpan_new _ (by omega)) (by omega) (by omega)
    · exact spec_no_push rfl (le_refl _) hj2
  · refine spec_trans (spec_mk (i := s.index + 1) (x := Symbol.new .table (s.index + 1))
      (by simp) (okSpan_new _ (by omega)) (by omega) (by omega)) ?_
    refine spec_bind (scanTableLoop_spec t f true (push (adv s) .table)
      (by simp only [push_index, adv_index]; omega)) fun s3 heq => ?_
    have hsp := scanTableLoop_spec t f true (push (adv s) .table)
      (by simp only [push_index, adv_index]; omega)
    rw [heq] at hsp
    obtain ⟨-, hj1, hj2⟩ := hsp
    simp only [state_ok] at hj1 hj2
    refine spec_bind (consumeLine_spec t f s3 hj2) fun s4 heq4 => ?_
    have hsp4 := consumeLine_spec t f s3 hj2
    rw [heq4] at hsp4
    obtain ⟨-, hk1, hk2⟩ := hsp4
    simp only [state_ok] at hk1 hk2
    exact spec_mk (i := s4.index) (x := Symbol.new .tableEnd s4.index) (by simp)
      (okSpan_new _ (by omega)) (by omega) (by omega)

theorem scanLoop_spec (t : List Nat) :
    ∀ f s, s.index ≤ t.length → Spec t s (scanLoop t f s) := by
  intro f
  induction f with
  | zero => intro s h; exact spec_no_push rfl (le_refl _) h
  | succ f ih =>
    intro s h
    simp only [scanLoop]
    split
    · split
      · exact spec_no_push rfl (le_refl _) h
      · rename_i h13 hpk
        have hlt := byteAt_lt_length (t := t) (i := s.index + 1) (by omega)
        exact spec_trans (spec_no_push (i := s.index + 2) rfl (by omega) (by omega))
          (ih (jump s (s.index + 2)) (by simp only [jump_index]; omega))
    · split
      · rename_i h13 hws
        have hlt := byteAt_lt_length (t := t) (i := s.index) (by omega)
        exact spec_trans (spec_no_push (i := s.index + 1) rfl (Nat.le_succ _) hlt)
          (ih (adv s) hlt)
      · split
        · rename_i h13 hws h35
          have hlt := byteAt_lt_length (t := t) (i := s.index) (by omega)
          refine spec_bind (consumeComment_spec t f hlt) fun s1 heq => ?_
          have hsp := consumeComment_spec t f (s := s) hlt
          rw [heq] at hsp
          exact ih s1 hsp.2.2
        · split
          · rename_i h13 hws h35 h91
            have hne : byteAt t s.index ≠ 0 := by omega
            refine spec_bind (scanTable_spec t f hne) fun s1 heq => ?_
            have hsp := scanTable_spec t f (s := s) hne
            rw [heq] at hsp
            exact ih s1 hsp.2.2
          · split
            · refine spec_bind (scanKeyLike_spec t f h) fun s1 heq => ?_
              have hsp := scanKeyLike_spec t f (s := s) h
              rw [heq] at hsp
              refine spec_bind (skipWs_spec t f s1 hsp.2.2) fun s2 heq2 => ?_
              have hsp2 := skipWs_spec t f s1 hsp.2.2
              rw [heq2] at hsp2
              refine spec_bind (scanValue_spec t f hsp2.2.2) fun s3 heq3 => ?_
              have hsp3 := scanValue_spec t f (s := s2) hsp2.2.2
              rw [heq3] at hsp3
              refine spec_bind (consumeLine_spec t f s3 hsp3.2.2) fun s4 heq4 => ?_
              have hsp4 := consumeLine_spec t f s3 hsp3.2.2
              rw [heq4] at hsp4
              exact ih s4 hsp4.2.2
            · split
              · exact spec_no_push rfl (le_refl _) h
              · exact spec_no_push rfl (le_refl _) h

theorem scanTop_spans (t : List Nat) (f : Nat) :
    ∀ x ∈ (R.state (scanTop t f)).symbols, okSpan t.length x := by
  have hsp := scanLoop_spec t f ⟨0, []⟩ (Nat.zero_le _)
  unfold scanTop
  cases hl : scanLoop t f ⟨0, []⟩ with
  | ok s0 =>
    rw [hl] at hsp
    obtain ⟨⟨u, hu, hp⟩, -, hi2⟩ := hsp
    simp only [state_ok, List.nil_append] at hu hi2
    simp only [andThen]
    split
    · intro x hx
      simp only [state_err] at hx
      rw [hu] at hx
      exact (hp x hx).2
    · rename_i hne
      have heq : s0.index = t.length := by omega
      intro x hx
      simp only [state_ok, push_symbols] at hx
      rw [hu] at hx
      rcases List.mem_append.1 hx with hx | hx
      · exact (hp x hx).2
      · rw [List.mem_singleton] at hx
        subst hx
        exact okSpan_new _ (le_of_eq heq)
  | err e s0 =>
    rw [hl] at hsp
    obtain ⟨⟨u, hu, hp⟩, -, -⟩ := hsp
    simp only [state_err, List.nil_append] at hu
    simp only [andThen, state_err]
    intro x hx
    rw [hu] at hx
    exact (hp x hx).2
  | panic s0 =>
    rw [hl] at hsp
    obtain ⟨⟨u, hu, hp⟩, -, -⟩ := hsp
    simp only [state_panic, List.nil_append] at hu
    simp only [andThen, state_panic]
    intro x hx
    rw [hu] at hx
    exact (hp x hx).2
  | fuelOut s0 =>
    rw [hl] at hsp
    obtain ⟨⟨u, hu, hp⟩, -, -⟩ := hsp
    simp only [state_fuelOut, List.nil_append] at hu
    simp only [andThen, state_fuelOut]
    intro x hx
    rw [hu] at hx
    exact (hp x hx).2

theorem scanTop_ok_eof (t : List Nat) (f : Nat) (s' : St) (hok : scanTop t f = .ok s') :
    s'.index = t.length ∧
    ∃ u, s'.symbols = u ++ [Symbol.new Sym.eof t.length] ∧ ∀ x ∈ u, x.sym ≠ Sym.eof := by
  unfold scanTop at hok
  cases hl : scanLoop t f ⟨0, []⟩ with
  | ok s0 =>
    rw [hl] at hok
    simp only [andThen] at hok
    split at hok
    · simp at hok
    · rename_i hne
      have heq : s0.index = t.length := by omega
      simp only [R.ok.injEq] at hok
      subst hok
      have hsp := scanLoop_spec t f ⟨0, []⟩ (Nat.zero_le _)
      rw [hl] at hsp
      obtain ⟨⟨u, hu, hp⟩, -, -⟩ := hsp
      simp only [state_ok, List.nil_append] at hu
      refine ⟨by simp [heq], ⟨u, ?_, fun x hx => (hp x hx).1⟩⟩
      simp only [push_symbols, hu, heq]
  | err e s0 => rw [hl] at hok; simp [andThen] at hok
  | panic s0 => rw [hl] at hok; simp [andThen] at hok
  | fuelOut s0 => rw [hl] at hok; simp [andThen] at hok

end TomlLex

namespace TomlLex

theorem spec_symbols {t : List Nat} {s : St} {r : R} (h : Spec t s r) :
    ∃ u, (R.state r).symbols = s.symbols ++ u := ⟨h.1.choose, h.1.choose_spec.1⟩

theorem skipWs_stop (t : List Nat) (g : Nat) (s : St) (hg : 1 ≤ g)
    (h : ¬(byteAt t s.index = 32 ∨ byteAt t s.index = 9)) : skipWs t g s = .ok s := by
  cases g with
  | zero => omega
  | succ g => simp only [skipWs, if_neg h]

theorem scanDottedLoop_newline (t : List Nat) (f : Nat) (saw : Bool) (s : St) :
    (byteAt t s.index = 10 →
      scanDottedLoop t (f + 2) saw s = .err (.multilineKey s.index) s) ∧
    (byteAt t s.index = 13 → byteAt t (s.index + 1) = 10 →
      scanDottedLoop t (f + 2) saw s = .err (.multilineKey s.index) s) ∧
    (byteAt t s.index = 13 → byteAt t (s.index + 1) ≠ 10 →
      scanDottedLoop t (f + 2) saw s = .err (.controlCharacter s.index) s) := by
  refine ⟨fun h10 => ?_, fun h13 hlf => ?_, fun h13 hnl => ?_⟩
  · show scanDottedLoop t (f + 1 + 1) saw s = _
    generalize hg : f + 1 = g
    simp only [scanDottedLoop]
    rw [skipWs_stop t g s (by omega) (by omega)]
    simp only [andThen]
    rw [if_neg (by omega : ¬byteAt t s.index = 13), if_pos h10]
  · show scanDottedLoop t (f + 1 + 1) saw s = _
    generalize hg : f + 1 = g
    simp only [scanDottedLoop]
    rw [skipWs_stop t g s (by omega) (by omega)]
    simp only [andThen]
    rw [if_pos h13, if_neg (by omega : ¬byteAt t (s.index + 1) ≠ 10)]
  · show scanDottedLoop t (f + 1 + 1) saw s = _
    generalize hg : f + 1 = g
    simp only [scanDottedLoop]
    rw [skipWs_stop t g s (by omega) (by omega)]
    simp only [andThen]
    rw [if_pos h13, if_pos hnl]

theorem scanTableLoop_newline (t : List Nat) (f : Nat) (saw : Bool) (s : St) :
    (byteAt t s.index = 10 →
      scanTableLoop t (f + 1) saw s = .err (.multilineKey s.index) s) ∧
    (byteAt t s.index = 13 → byteAt t (s.index + 1) = 10 →
      scanTableLoop t (f + 1) saw s = .err (.multilineKey s.index) s) ∧
    (byteAt t s.index = 13 → byteAt t (s.index + 1) ≠ 10 →
      scanTableLoop t (f + 1) saw s = .err (.controlCharacter s.index) s) := by
  refine ⟨fun h10 => ?_, fun h13 hlf => ?_, fun h13 hnl => ?_⟩
  · simp only [scanTableLoop]
    rw [if_neg (by omega : ¬byteAt t s.index = 13), if_pos h10]
  · simp only [scanTableLoop]
    rw [if_pos h13, if_neg (by omega : ¬byteAt t (s.index + 1) ≠ 10)]
  · simp only [scanTableLoop]
    rw [if_pos h13, if_pos hnl]

theorem scanTableTail_spec (t : List Nat) (f : Nat) (s2 : St) (h : s2.index ≤ t.length) :
    Spec t s2 (andThen (scanTableLoop t f true s2) fun s3 =>
      andThen (consumeLine t f s3) fun s4 => .ok (push s4 .tableEnd)) := by
  refine spec_bind (scanTableLoop_spec t f true s2 h) fun s3 heq => ?_
  have hsp := scanTableLoop_spec t f true s2 h
  rw [heq] at hsp
  obtain ⟨-, hj1, hj2⟩ := hsp
  simp only [state_ok] at hj1 hj2
  refine spec_bind (consumeLine_spec t f s3 hj2) fun s4 heq4 => ?_
  have hsp4 := consumeLine_spec t f s3 hj2
  rw [heq4] at hsp4
  obtain ⟨-, hk1, hk2⟩ := hsp4
  simp only [state_ok] at hk1 hk2
  exact spec_mk (i := s4.index) (x := Symbol.new .tableEnd s4.index) (by simp)
    (okSpan_new _ (by omega)) (by omega) (by omega)

theorem scanTableTailArr_spec (t : List Nat) (f : Nat) (s2 : St) (h : s2.index ≤ t.length) :
    Spec t s2 (andThen (scanTableLoop t f true s2) fun s3 =>
      if byteAt t s3.index = 93 then
        andThen (consumeLine t f (adv s3)) fun s4 => .ok (push s4 .tableEnd)
      else .err (.expected s3.index 93) s3) := by
  refine spec_bind (scanTableLoop_spec t f true s2 h) fun s3 heq => ?_
  have hsp := scanTableLoop_spec t f true s2 h
  rw [heq] at hsp
  obtain ⟨-, hj1, hj2⟩ := hsp
  simp only [state_ok] at hj1 hj2
  split
  · rename_i h93
    have hlt3 := byteAt_lt_length (t := t) (i := s3.index) (by omega)
    refine spec_trans (spec_no_push (i := s3.index + 1) rfl (Nat.le_succ _) hlt3) ?_
    refine spec_bind (consumeLine_spec t f (adv s3) hlt3) fun s4 heq4 => ?_
    have hsp4 := consumeLine_spec t f (adv s3) hlt3
    rw [heq4] at hsp4
    obtain ⟨-, hk1, hk2⟩ := hsp4
    simp only [state_ok, adv_index] at hk1 hk2
    exact spec_mk (i := s4.index) (x := Symbol.new .tableEnd s4.index) (by simp)
      (okSpan_new _ (by omega)) (by omega) (by omega)
  · exact spec_no_push rfl (le_refl _) hj2

theorem scanTable_header (t : List Nat) (f : Nat) {s : St} (h : byteAt t s.index ≠ 0) :
    (byteAt t (s.index + 1) ≠ 91 →
      ∃ u, (R.state (scanTable t f s)).symbols =
        s.symbols ++ Symbol.new Sym.table (s.index + 1) :: u) ∧
    (byteAt t (s.index + 1) = 91 →
      ∃ u, (R.state (scanTable t f s)).symbols =
        s.symbols ++ Symbol.new Sym.arrayOfTable (s.index + 2) :: u) := by
  have hlt := byteAt_lt_length h
  constructor
  · intro hno
    simp only [scanTable, adv_index, push_index]
    rw [if_neg hno]
    obtain ⟨u2, hu2⟩ := spec_symbols (scanTableTail_spec t f
      (push (adv s) .table) (by simp only [push_index, adv_index]; omega))
    refine ⟨u2, ?_⟩
    rw [hu2]
    simp only [push_symbols, adv_symbols, adv_index]
    rw [List.append_assoc]
    rfl
  · intro hyes
    simp only [scanTable, adv_index, push_index]
    rw [if_pos hyes]
    have hlt2 := byteAt_lt_length (t := t) (i := s.index + 1) (by omega)
    obtain ⟨u2, hu2⟩ := spec_symbols (scanTableTailArr_spec t f
      (push (adv (adv s)) .arrayOfTable) (by simp only [push_index, adv_index]; omega))
    refine ⟨u2, ?_⟩
    rw [hu2]
    simp only [push_symbols, adv_symbols, adv_index]
    rw [List.append_assoc]
    rfl

end TomlLex

namespace TomlLex

/-! ### Exact span characterizations, one per payload-symbol producer -/

theorem byteAt_drop (t : List Nat) (n i : Nat) : byteAt (t.drop n) i = byteAt t (n + i) := by
  unfold byteAt
  rw [List.getD_eq_getElem?_getD, List.getD_eq_getElem?_getD, List.getElem?_drop]

theorem findTriple_found : ∀ (l : List Nat) (i : Nat), findTriple l = some i →
    l.getD i 0 = 39 ∧ l.getD (i + 1) 0 = 39 ∧ l.getD (i + 2) 0 = 39 := by
  intro l
  induction l with
  | nil => intro i h; simp [findTriple] at h
  | cons a rest ih =>
    intro i h
    simp only [findTriple] at h
    split at h
    · rename_i hcond
      obtain ⟨h39, hh, ht⟩ := hcond
      match rest, hh, ht with
      | b :: r2, hh, ht =>
        match r2, ht with
        | c :: r3, ht =>
          simp only [Option.some.injEq] at h
          subst h
          simp only [List.head?_cons, Option.some.injEq] at hh ht
          refine ⟨?_, ?_, ?_⟩
          · simpa [List.getD_cons_zero] using h39
          · simpa [List.getD_cons_succ, List.getD_cons_zero] using hh
          · simpa [List.getD_cons_succ, List.getD_cons_zero] using ht
    · rw [Option.map_eq_some'] at h
      obtain ⟨j, hj, hji⟩ := h
      obtain ⟨g1, g2, g3⟩ := ih j hj
      subst hji
      refine ⟨?_, ?_, ?_⟩
      · simpa [List.getD_cons_succ] using g1
      · simpa [List.getD_cons_succ] using g2
      · rw [show j + 1 + 2 = (j + 2) + 1 by omega, List.getD_cons_succ]
        exact g3

theorem scanKeyLoop_char (t : List Nat) :
    ∀ f s s', scanKeyLoop t f s = .ok s' →
      s'.symbols = s.symbols ∧ s.index + 1 ≤ s'.index ∧
      (byteAt t s'.index = 32 ∨ byteAt t s'.index = 9 ∨ byteAt t s'.index = 61 ∨
        byteAt t s'.index = 46 ∨ byteAt t s'.index = 93) ∧
      ∀ j, s.index + 1 ≤ j → j < s'.index → isKeyByte (byteAt t j) := by
  intro f
  induction f with
  | zero => intro s s' h; simp [scanKeyLoop] at h
  | succ f ih =>
    intro s s' h
    simp only [scanKeyLoop] at h
    split at h
    · rename_i hkb
      obtain ⟨a, b, c, d⟩ := ih (adv s) s' h
      simp only [adv_index] at b
      refine ⟨a, by omega, c, ?_⟩
      intro j hj1 hj2
      by_cases hje : j = s.index + 1
      · subst hje
        exact hkb
      · exact d j (by simp only [adv_index]; omega) hj2
    · split at h
      · rename_i hkb hbrk
        simp only [R.ok.injEq] at h
        subst h
        refine ⟨rfl, by simp, hbrk, ?_⟩
        intro j hj1 hj2
        simp only [adv_index] at hj2
        exact absurd hj2 (by omega)
      · simp at h

theorem scanKey_char (t : List Nat) (f : Nat) (s s' : St) (hok : scanKey t f s = .ok s') :
    ∃ e, s.index + 1 ≤ e ∧ s'.index = e ∧
      s'.symbols = s.symbols ++ [Symbol.withSpan Sym.key s.index (e - 1)] ∧
      (byteAt t e = 32 ∨ byteAt t e = 9 ∨ byteAt t e = 61 ∨
        byteAt t e = 46 ∨ byteAt t e = 93) ∧
      ∀ j, s.index + 1 ≤ j → j < e → isKeyByte (byteAt t j) := by
  unfold scanKey at hok
  cases hl : scanKeyLoop t f s with
  | ok s1 =>
    rw [hl] at hok
    simp only [andThen, R.ok.injEq] at hok
    obtain ⟨a, b, c, d⟩ := scanKeyLoop_char t f s s1 hl
    subst hok
    exact ⟨s1.index, b, by simp, by simp [a], c, d⟩
  | err e s1 => rw [hl] at hok; simp [andThen] at hok
  | panic s1 => rw [hl] at hok; simp [andThen] at hok
  | fuelOut s1 => rw [hl] at hok; simp [andThen] at hok

theorem scanMultilineLiteralString_char (t : List Nat) (f : Nat) (s s' : St)
    (hok : scanMultilineLiteralString t f s = .ok s') :
    ∃ e, s'.index = e ∧ s.index + 6 ≤ e ∧
      s'.symbols = s.symbols ++ [Symbol.withSpan Sym.str (s.index + 3) (e - 3)] ∧
      byteAt t (e - 3) = 39 ∧ byteAt t (e - 2) = 39 ∧ byteAt t (e - 1) = 39 := by
  simp only [scanMultilineLiteralString, jump_index, adv_index, pushSpan_index] at hok
  split at hok
  · rename_i j hft
    have hb1 : byteAt t (s.index + 3 + j) = 39 := by
      have h : byteAt (t.drop (s.index + 3)) j = 39 := (findTriple_found _ j hft).1
      rwa [byteAt_drop] at h
    have hb2 : byteAt t (s.index + 3 + (j + 1)) = 39 := by
      have h : byteAt (t.drop (s.index + 3)) (j + 1) = 39 := (findTriple_found _ j hft).2.1
      rwa [byteAt_drop] at h
    have hb3 : byteAt t (s.index + 3 + (j + 2)) = 39 := by
      have h : byteAt (t.drop (s.index + 3)) (j + 2) = 39 := (findTriple_found _ j hft).2.2
      rwa [byteAt_drop] at h
    split at hok
    · rename_i hq1
      split at hok
      · rename_i hq2
        split at hok
        · simp at hok
        · simp only [R.ok.injEq] at hok
          subst hok
          refine ⟨s.index + 3 + j + 3 + 1 + 1, by simp, by omega, by simp, ?_, ?_, ?_⟩
          · rw [show s.index + 3 + j + 3 + 1 + 1 - 3 = s.index + 3 + (j + 2) by omega]
            exact hb3
          · rw [show s.index + 3 + j + 3 + 1 + 1 - 2 = s.index + 3 + j + 3 by omega]
            exact hq1
          · rw [show s.index + 3 + j + 3 + 1 + 1 - 1 = s.index + 3 + j + 3 + 1 by omega]
            exact hq2
      · rename_i hq2
        simp only [R.ok.injEq] at hok
        subst hok
        refine ⟨s.index + 3 + j + 3 + 1, by simp, by omega, by simp, ?_, ?_, ?_⟩
        · rw [show s.index + 3 + j + 3 + 1 - 3 = s.index + 3 + (j + 1) by omega]
          exact hb2
        · rw [show s.index + 3 + j + 3 + 1 - 2 = s.index + 3 + (j + 2) by omega]
          exact hb3
        · rw [show s.index + 3 + j + 3 + 1 - 1 = s.index + 3 + j + 3 by omega]
          exact hq1
    · rename_i hq1
      simp only [R.ok.injEq] at hok
      subst hok
      refine ⟨s.index + 3 + j + 3, by simp, by omega, by simp, ?_, ?_, ?_⟩
      · rw [show s.index + 3 + j + 3 - 3 = s.index + 3 + j by omega]
        exact hb1
      · rw [show s.index + 3 + j + 3 - 2 = s.index + 3 + (j + 1) by omega]
        exact hb2
      · rw [show s.index + 3 + j + 3 - 1 = s.index + 3 + (j + 2) by omega]
        exact hb3
  · simp at hok

theorem scanMLBasicLoop_char (t : List Nat) (start : Nat) :
    ∀ f qc slash s s', start + qc ≤ s.index →
      (∀ j, s.index - qc ≤ j → j < s.index → byteAt t j = 34) →
      scanMLBasicLoop t start f qc slash s = .ok s' →
      ∃ q, 3 ≤ q ∧ q ≤ 5 ∧ start + q ≤ s'.index ∧
        s'.symbols = s.symbols ++ [Symbol.withSpan Sym.str start (s'.index - (q - 3))] ∧
        ∀ j, s'.index - q ≤ j → j < s'.index → byteAt t j = 34 := by
  intro f
  induction f with
  | zero => intro qc slash s s' h1 h2 h; simp [scanMLBasicLoop] at h
  | succ f ih =>
    intro qc slash s s' h1 h2 h
    simp only [scanMLBasicLoop] at h
    split at h
    · rename_i h34
      split at h
      · refine ih (qc + 1) 0 (adv s) s' (by simp only [adv_index]; omega) ?_ h
        intro j hj1 hj2
        simp only [adv_index] at hj1 hj2
        by_cases hje : j = s.index
        · subst hje
          exact h34
        · exact h2 j (by omega) (by omega)
      · refine ih 0 0 (adv s) s' (by simp only [adv_index]; omega) ?_ h
        intro j hj1 hj2
        simp only [adv_index] at hj1 hj2
        exact absurd hj2 (by omega)
    · split at h
      · split at h
        · refine ih 0 (slash + 1) (adv s) s' (by simp only [adv_index]; omega) ?_ h
          intro j hj1 hj2
          simp only [adv_index] at hj1 hj2
          exact absurd hj2 (by omega)
        · split at h
          · rename_i h34 h92 hq2 hq5
            simp only [R.ok.injEq] at h
            subst h
            refine ⟨qc, by omega, hq5, ?_, ?_, ?_⟩
            · simp only [pushSpan_index]
              exact h1
            · simp only [pushSpan_symbols, pushSpan_index]
            · intro j hj1 hj2
              simp only [pushSpan_index] at hj1 hj2
              exact h2 j hj1 hj2
          · simp at h
      · split at h
        · rename_i h34 h92 hq35
          simp only [R.ok.injEq] at h
          subst h
          refine ⟨qc, hq35.1, hq35.2, ?_, ?_, ?_⟩
          · simp only [pushSpan_index]
            exact h1
          · simp only [pushSpan_symbols, pushSpan_index]
          · intro j hj1 hj2
            simp only [pushSpan_index] at hj1 hj2
            exact h2 j hj1 hj2
        · split at h
          · simp at h
          · split at h
            · simp at h
            · refine ih 0 slash (adv s) s' (by simp only [adv_index]; omega) ?_ h
              intro j hj1 hj2
              simp only [adv_index] at hj1 hj2
              exact absurd hj2 (by omega)

theorem scanMultilineBasicString_char (t : List Nat) (f : Nat) (s s' : St)
    (hok : scanMultilineBasicString t f s = .ok s') :
    ∃ q, 3 ≤ q ∧ q ≤ 5 ∧ s.index + 3 + q ≤ s'.index ∧
      s'.symbols = s.symbols ++ [Symbol.withSpan Sym.str (s.index + 3) (s'.index - (q - 3))] ∧
      ∀ j, s'.index - q ≤ j → j < s'.index → byteAt t j = 34 := by
  simp only [scanMultilineBasicString, jump_index] at hok
  obtain ⟨q, hq3, hq5, hmono, hsym, hquotes⟩ :=
    scanMLBasicLoop_char t (s.index + 3) f 0 0 (jump s (s.index + 3)) s'
      (by simp) (fun j hj1 hj2 => by simp only [jump_index] at hj1 hj2; exact absurd hj2 (by omega))
      hok
  exact ⟨q, hq3, hq5, hmono, by simpa using hsym, hquotes⟩

theorem scanHexLoop_char (t : List Nat) :
    ∀ f allow s s', scanHexLoop t f allow s = .ok s' →
      s'.symbols = s.symbols ∧ s.index ≤ s'.index ∧ isNumTerm (byteAt t s'.index) := by
  intro f
  induction f with
  | zero => intro allow s s' h; simp [scanHexLoop] at h
  | succ f ih =>
    intro allow s s' h
    simp only [scanHexLoop] at h
    split at h
    · obtain ⟨a, b, c⟩ := ih true (adv s) s' h
      exact ⟨a, by simp only [adv_index] at b; omega, c⟩
    · split at h
      · split at h
        · simp at h
        · exact ih false s s' h
      · split at h
        · rename_i h1 h2 hterm
          simp only [R.ok.injEq] at h
          subst h
          exact ⟨rfl, le_refl _, hterm⟩
        · simp at h

theorem scanOctLoop_char (t : List Nat) :
    ∀ f allow s s', scanOctLoop t f allow s = .ok s' →
      s'.symbols = s.symbols ∧ s.index ≤ s'.index ∧ isNumTerm (byteAt t s'.index) := by
  intro f
  induction f with
  | zero => intro allow s s' h; simp [scanOctLoop] at h
  | succ f ih =>
    intro allow s s' h
    simp only [scanOctLoop] at h
    split at h
    · obtain ⟨a, b, c⟩ := ih true (adv s) s' h
      exact ⟨a, by simp only [adv_index] at b; omega, c⟩
    · split at h
      · split at h
        · simp at h
        · obtain ⟨a, b, c⟩ := ih false (adv s) s' h
          exact ⟨a, by simp only [adv_index] at b; omega, c⟩
      · split at h
        · rename_i h1 h2 hterm
          simp only [R.ok.injEq] at h
          subst h
          exact ⟨rfl, le_refl _, hterm⟩
        · simp at h

theorem scanBinLoop_char (t : List Nat) :
    ∀ f allow s s', scanBinLoop t f allow s = .ok s' →
      s'.symbols = s.symbols ∧ s.index ≤ s'.index ∧ isNumTerm (byteAt t s'.index) := by
  intro f
  induction f with
  | zero => intro allow s s' h; simp [scanBinLoop] at h
  | succ f ih =>
    intro allow s s' h
    simp only [scanBinLoop] at h
    split at h
    · obtain ⟨a, b, c⟩ := ih true (adv s) s' h
      exact ⟨a, by simp only [adv_index] at b; omega, c⟩
    · split at h
      · split at h
        · simp at h
        · obtain ⟨a, b, c⟩ := ih false (adv s) s' h
          exact ⟨a, by simp only [adv_index] at b; omega, c⟩
      · split at h
        · rename_i h1 h2 hterm
          simp only [R.ok.injEq] at h
          subst h
          exact ⟨rfl, le_refl _, hterm⟩
        · simp at h

theorem scanDecLoop_char (t : List Nat) :
    ∀ f allow s s', scanDecLoop t f allow s = .ok s' →
      s'.symbols = s.symbols ∧ s.index ≤ s'.index ∧ isNumTerm (byteAt t s'.index) := by
  intro f
  induction f with
  | zero => intro allow s s' h; simp [scanDecLoop] at h
  | succ f ih =>
    intro allow s s' h
    simp only [scanDecLoop] at h
    split at h
    · obtain ⟨a, b, c⟩ := ih true (adv s) s' h
      exact ⟨a, by simp only [adv_index] at b; omega, c⟩
    · split at h
      · split at h
        · simp at h
        · obtain ⟨a, b, c⟩ := ih false (adv s) s' h
          exact ⟨a, by simp only [adv_index] at b; omega, c⟩
      · split at h
        · rename_i h1 h2 hterm
          simp only [R.ok.injEq] at h
          subst h
          exact ⟨rfl, le_refl _, hterm⟩
        · simp at h

theorem scanNumber_char (t : List Nat) (f : Nat) (s s' : St)
    (hok : scanNumber t f s = .ok s') :
    ∃ e, s'.index = e ∧ s.index ≤ e ∧
      s'.symbols = s.symbols ++ [Symbol.withSpan Sym.integer s.index (e - 1)] ∧
      isNumTerm (byteAt t e) := by
  simp only [scanNumber] at hok
  by_cases hsig : byteAt t s.index = 45 ∨ byteAt t s.index = 43
  · simp only [if_pos hsig, adv_index, jump_index] at hok
    split at hok
    · cases hl : scanHexLoop t f false (jump (adv s) (s.index + 1 + 2)) with
      | ok s2 =>
        rw [hl] at hok
        simp only [andThen, R.ok.injEq] at hok
        subst hok
        obtain ⟨ha, hb, hc⟩ := scanHexLoop_char t f false _ s2 hl
        simp only [jump_symbols, adv_symbols, jump_index] at ha hb
        exact ⟨s2.index, by simp, by omega, by simp [ha], hc⟩
      | err e s2 => rw [hl] at hok; simp [andThen] at hok
      | panic s2 => rw [hl] at hok; simp [andThen] at hok
      | fuelOut s2 => rw [hl] at hok; simp [andThen] at hok
    · split at hok
      · cases hl : scanOctLoop t f false (jump (adv s) (s.index + 1 + 2)) with
        | ok s2 =>
          rw [hl] at hok
          simp only [andThen, R.ok.injEq] at hok
          subst hok
          obtain ⟨ha, hb, hc⟩ := scanOctLoop_char t f false _ s2 hl
          simp only [jump_symbols, adv_symbols, jump_index] at ha hb
          exact ⟨s2.index, by simp, by omega, by simp [ha], hc⟩
        | err e s2 => rw [hl] at hok; simp [andThen] at hok
        | panic s2 => rw [hl] at hok; simp [andThen] at hok
        | fuelOut s2 => rw [hl] at hok; simp [andThen] at hok
      · split at hok
        · cases hl : scanBinLoop t f false (jump (adv s) (s.index + 1 + 2)) with
          | ok s2 =>
            rw [hl] at hok
            simp only [andThen, R.ok.injEq] at hok
            subst hok
            obtain ⟨ha, hb, hc⟩ := scanBinLoop_char t f false _ s2 hl
            simp only [jump_symbols, adv_symbols, jump_index] at ha hb
            exact ⟨s2.index, by simp, by omega, by simp [ha], hc⟩
          | err e s2 => rw [hl] at hok; simp [andThen] at hok
          | panic s2 => rw [hl] at hok; simp [andThen] at hok
          | fuelOut s2 => rw [hl] at hok; simp [andThen] at hok
        · cases hl : scanDecLoop t f false (adv s) with
          | ok s2 =>
            rw [hl] at hok
            simp only [andThen, R.ok.injEq] at hok
            subst hok
            obtain ⟨ha, hb, hc⟩ := scanDecLoop_char t f false _ s2 hl
            simp only [adv_symbols, adv_index] at ha hb
            exact ⟨s2.index, by simp, by omega, by simp [ha], hc⟩
          | err e s2 => rw [hl] at hok; simp [andThen] at hok
          | panic s2 => rw [hl] at hok; simp [andThen] at hok
          | fuelOut s2 => rw [hl] at hok; simp [andThen] at hok
  · simp only [if_neg hsig, jump_index] at hok
    split at hok
    · cases hl : scanHexLoop t f false (jump s (s.index + 2)) with
      | ok s2 =>
        rw [hl] at hok
        simp only [andThen, R.ok.injEq] at hok
        subst hok
        obtain ⟨ha, hb, hc⟩ := scanHexLoop_char t f false _ s2 hl
        simp only [jump_symbols, jump_index] at ha hb
        exact ⟨s2.index, by simp, by omega, by simp [ha], hc⟩
      | err e s2 => rw [hl] at hok; simp [andThen] at hok
      | panic s2 => rw [hl] at hok; simp [andThen] at hok
      | fuelOut s2 => rw [hl] at hok; simp [andThen] at hok
    · split at hok
      · cases hl : scanOctLoop t f false (jump s (s.index + 2)) with
        | ok s2 =>
          rw [hl] at hok
          simp only [andThen, R.ok.injEq] at hok
          subst hok
          obtain ⟨ha, hb, hc⟩ := scanOctLoop_char t f false _ s2 hl
          simp only [jump_symbols, jump_index] at ha hb
          exact ⟨s2.index, by simp, by omega, by simp [ha], hc⟩
        | err e s2 => rw [hl] at hok; simp [andThen] at hok
        | panic s2 => rw [hl] at hok; simp [andThen] at hok
        | fuelOut s2 => rw [hl] at hok; simp [andThen] at hok
      · split at hok
        · cases hl : scanBinLoop t f false (jump s (s.index + 2)) with
          | ok s2 =>
            rw [hl] at hok
            simp only [andThen, R.ok.injEq] at hok
            subst hok
            obtain ⟨ha, hb, hc⟩ := scanBinLoop_char t f false _ s2 hl
            simp only [jump_symbols, jump_index] at ha hb
            exact ⟨s2.index, by simp, by omega, by simp [ha], hc⟩
          | err e s2 => rw [hl] at hok; simp [andThen] at hok
          | panic s2 => rw [hl] at hok; simp [andThen] at hok
          | fuelOut s2 => rw [hl] at hok; simp [andThen] at hok
        · cases hl : scanDecLoop t f false s with
          | ok s2 =>
            rw [hl] at hok
            simp only [andThen, R.ok.injEq] at hok
            subst hok
            obtain ⟨ha, hb, hc⟩ := scanDecLoop_char t f false _ s2 hl
            exact ⟨s2.index, by simp, by omega, by simp [ha], hc⟩
          | err e s2 => rw [hl] at hok; simp [andThen] at hok
          | panic s2 => rw [hl] at hok; simp [andThen] at hok
          | fuelOut s2 => rw [hl] at hok; simp [andThen] at hok

theorem scanValue_true_bool (t : List Nat) (f : Nat) (s : St)
    (h0 : byteAt t s.index = 116) (h1 : byteAt t (s.index + 1) = 114)
    (h2 : byteAt t (s.index + 2) = 117) (h3 : byteAt t (s.index + 3) = 101) :
    scanValue t (f + 1) s =
      .ok ⟨s.index + 4, s.symbols ++ [Symbol.withSpan Sym.bool s.index (s.index + 4)]⟩ := by
  simp only [scanValue]
  rw [if_neg (by omega : ¬(byteAt t s.index = 34 ∨ byteAt t s.index = 39)),
    if_neg (by omega : ¬byteAt t s.index = 123), if_neg (by omega : ¬byteAt t s.index = 91),
    if_pos (by omega : byteAt t s.index = 116 ∨ byteAt t s.index = 102),
    if_pos ⟨h0, h1, h2, h3⟩]
  rfl

theorem scanValue_false_bool (t : List Nat) (f : Nat) (s : St)
    (h0 : byteAt t s.index = 102) (h1 : byteAt t (s.index + 1) = 97)
    (h2 : byteAt t (s.index + 2) = 108) (h3 : byteAt t (s.index + 3) = 115)
    (h4 : byteAt t (s.index + 4) = 101) :
    scanValue t (f + 1) s =
      .ok ⟨s.index + 5, s.symbols ++ [Symbol.withSpan Sym.bool s.index (s.index + 5)]⟩ := by
  simp only [scanValue]
  rw [if_neg (by omega : ¬(byteAt t s.index = 34 ∨ byteAt t s.index = 39)),
    if_neg (by omega : ¬byteAt t s.index = 123), if_neg (by omega : ¬byteAt t s.index = 91),
    if_pos (by omega : byteAt t s.index = 116 ∨ byteAt t s.index = 102),
    if_neg (by omega : ¬(byteAt t s.index = 116 ∧ byteAt t (s.index + 1) = 114 ∧
      byteAt t (s.index + 2) = 117 ∧ byteAt t (s.index + 3) = 101)),
    if_pos ⟨h0, h1, h2, h3, h4⟩]
  rfl

theorem scanValue_inf_nan_float (t : List Nat) (f : Nat) (s : St)
    (hd : t.drop s.index = [105, 110, 102] ∨ t.drop s.index = [110, 97, 110]) :
    scanValue t (f + 1) s =
      .ok ⟨s.index + 3, s.symbols ++ [Symbol.withSpan Sym.float s.index (s.index + 3)]⟩ := by
  have hc : byteAt t s.index = 105 ∨ byteAt t s.index = 110 := by
    rcases hd with hd | hd
    · left
      have h : byteAt (t.drop s.index) 0 = 105 := by rw [hd]; rfl
      rwa [byteAt_drop, Nat.add_zero] at h
    · right
      have h : byteAt (t.drop s.index) 0 = 110 := by rw [hd]; rfl
      rwa [byteAt_drop, Nat.add_zero] at h
  simp only [scanValue]
  rw [if_neg (by omega : ¬(byteAt t s.index = 34 ∨ byteAt t s.index = 39)),
    if_neg (by omega : ¬byteAt t s.index = 123), if_neg (by omega : ¬byteAt t s.index = 91),
    if_neg (by omega : ¬(byteAt t s.index = 116 ∨ byteAt t s.index = 102)),
    if_pos hc, if_pos hd]
  rfl

theorem scanKey_newline (t : List Nat) (f : Nat) (s : St)
    (h : byteAt t (s.index + 1) = 10 ∨ byteAt t (s.index + 1) = 13) :
    scanKey t (f + 1) s = .err (.unexpected (s.index + 1)) (adv s) := by
  have hkl : scanKeyLoop t (f + 1) s = .err (.unexpected (s.index + 1)) (adv s) := by
    simp only [scanKeyLoop, adv_index]
    rw [if_neg (by unfold isKeyByte; omega),
      if_neg (by omega : ¬(byteAt t (s.index + 1) = 32 ∨ byteAt t (s.index + 1) = 9 ∨
        byteAt t (s.index + 1) = 61 ∨ byteAt t (s.index + 1) = 46 ∨
        byteAt t (s.index + 1) = 93))]
  simp only [scanKey]
  rw [hkl]
  rfl

end TomlLex

namespace TomlLex

/-! ### Embedding fidelity checks against the repository's own unit tests -/

/-- Fidelity: the repo test `hello = 'world'` (Key[0,4], Assign@6, String[9,13], Eof@15). -/
theorem sanity_hello_world :
    scanTop [104, 101, 108, 108, 111, 32, 61, 32, 39, 119, 111, 114, 108, 100, 39] 100 =
      .ok ⟨15, [Symbol.withSpan Sym.key 0 4, Symbol.new Sym.assign 6,
                Symbol.withSpan Sym.str 9 13, Symbol.new Sym.eof 15]⟩ := by decide

/-- Fidelity: the repo test `a = [true false]` fails with MissingDelimiter at 10. -/
theorem sanity_missing_delimiter :
    scanTop [97, 32, 61, 32, 91, 116, 114, 117, 101, 32, 102, 97, 108, 115, 101, 93] 100 =
      .err (.missingDelimiter 10) ⟨10, [Symbol.withSpan Sym.key 0 0, Symbol.new Sym.assign 2,
        Symbol.new Sym.array 4, Symbol.withSpan Sym.bool 5 9]⟩ := by decide

/-! ### Claim theorems -/

/-- C1: the claim says scan never panics and a digit-initial value yields an
Integer token or a taxonomy error.  The code dispatches a digit-initial value
to `scan_number_or_date`, which is `todo!()` and panics: on the claim's own
example input `a = 1` (bytes below) the scan panics after pushing Key and
Assign, with the cursor on the digit. -/
theorem c1_digit_value_panics :
    scanTop [97, 32, 61, 32, 49] 100 =
      .panic ⟨4, [Symbol.withSpan Sym.key 0 0, Symbol.new Sym.assign 2]⟩ := by decide

/-- C2 counterexample: four payload kinds violate the claimed
content-exactly-between-delimiters discipline.  For `k = "ab"` the String's
stored span `{5, 8}` covers `ab"` (closing quote included); for `k = '''ab'''`
the stored span `{7, 10}` includes the first byte of the closing delimiter;
for `a = true # x` the Bool's stored span `{4, 9}` covers `true ` (one byte
past the literal); for `k = """ab"""` the String's stored span `{7, 13}`
covers `ab` plus the entire closing `"""`. -/
theorem c2_counterexample :
    scanTop [107, 32, 61, 32, 34, 97, 98, 34] 100 =
      .ok ⟨8, [Symbol.withSpan Sym.key 0 0, Symbol.new Sym.assign 2,
               Symbol.withSpan Sym.str 5 7, Symbol.new Sym.eof 8]⟩ ∧
    sliceSpan [107, 32, 61, 32, 34, 97, 98, 34] ⟨5, 8⟩ = [97, 98, 34] ∧
    sliceSpan [107, 32, 61, 32, 34, 97, 98, 34] ⟨5, 8⟩ ≠ [97, 98] ∧
    scanTop [107, 32, 61, 32, 39, 39, 39, 97, 98, 39, 39, 39] 100 =
      .ok ⟨12, [Symbol.withSpan Sym.key 0 0, Symbol.new Sym.assign 2,
                Symbol.withSpan Sym.str 7 9, Symbol.new Sym.eof 12]⟩ ∧
    sliceSpan [107, 32, 61, 32, 39, 39, 39, 97, 98, 39, 39, 39] ⟨7, 10⟩ = [97, 98, 39] ∧
    scanTop [97, 32, 61, 32, 116, 114, 117, 101, 32, 35, 32, 120] 100 =
      .ok ⟨12, [Symbol.withSpan Sym.key 0 0, Symbol.new Sym.assign 2,
                Symbol.withSpan Sym.bool 4 8, Symbol.new Sym.eof 12]⟩ ∧
    sliceSpan [97, 32, 61, 32, 116, 114, 117, 101, 32, 35, 32, 120] ⟨4, 9⟩ =
      [116, 114, 117, 101, 32] ∧
    sliceSpan [97, 32, 61, 32, 116, 114, 117, 101, 32, 35, 32, 120] ⟨4, 9⟩ ≠
      [116, 114, 117, 101] ∧
    scanTop [107, 32, 61, 32, 34, 34, 34, 97, 98, 34, 34, 34] 100 =
      .ok ⟨12, [Symbol.withSpan Sym.key 0 0, Symbol.new Sym.assign 2,
                Symbol.withSpan Sym.str 7 12, Symbol.new Sym.eof 12]⟩ ∧
    sliceSpan [107, 32, 61, 32, 34, 34, 34, 97, 98, 34, 34, 34] ⟨7, 13⟩ =
      [97, 98, 34, 34, 34] := by
  decide

/-- C2 (amended): the span discipline, stated for every payload-symbol
producer in the code.  (a) `scan_key` pushes exactly one Key spanning exactly
the bare key: from its first byte up to (excluding) the terminating
space/tab/`=`/`.`/`]`, every covered byte past the first being a key byte.
(b) `scan_basic_string` pushes one String whose span runs from the byte after
the opening quote through the closing quote INCLUSIVE.  (c)
`scan_literal_string` pushes one String covering exactly the bytes strictly
between the quotes.  (d) `scan_multiline_literal_string` pushes one String
whose span ends exactly one byte INTO the closing `'''` (the last three bytes
before the final cursor are quotes and the span's stored upper bound is
cursor − 2).  (e) `scan_multiline_basic_string` pushes one String with stored
upper bound (break position) − (quote run − 3) + 1, the final quote run being
3–5 quotes ending at the break position — so the span always reaches into the
closing delimiter, covering all of it (plus the terminating byte) when the run
is exactly 3.  (f) `scan_number` pushes one Integer spanning from the first
byte (sign included) up to the terminating NUL/space/tab/`\n`/`#`/`,`
exclusive.  (g) `true`/`false`/`inf`/`nan` in `scan_value` push a Bool/Float
whose stored span is ONE BYTE LONGER than the literal (`push_span` receives an
end index already one past the literal and `with_span` adds one more). -/
theorem c2_amended :
    (∀ (t : List Nat) (f : Nat) (s s' : St), scanKey t f s = .ok s' →
      ∃ e, s.index + 1 ≤ e ∧ s'.index = e ∧
        s'.symbols = s.symbols ++ [Symbol.withSpan Sym.key s.index (e - 1)] ∧
        (byteAt t e = 32 ∨ byteAt t e = 9 ∨ byteAt t e = 61 ∨
          byteAt t e = 46 ∨ byteAt t e = 93) ∧
        ∀ j, s.index + 1 ≤ j → j < e → isKeyByte (byteAt t j)) ∧
    (∀ (t : List Nat) (f : Nat) (s s' : St), scanBasicString t f s = .ok s' →
      ∃ q, byteAt t q = 34 ∧ s.index + 1 ≤ q ∧
        s'.symbols = s.symbols ++ [Symbol.withSpan Sym.str (s.index + 1) q] ∧
        s'.index = q + 1) ∧
    (∀ (t : List Nat) (f : Nat) (s s' : St), scanLiteralString t f s = .ok s' →
      ∃ i, byteAt t (s.index + 1 + i) = 39 ∧
        s'.symbols = s.symbols ++ [Symbol.withSpan Sym.str (s.index + 1) (s.index + 1 + i - 1)] ∧
        s'.index = s.index + 1 + i + 1) ∧
    (∀ (t : List Nat) (f : Nat) (s s' : St), scanMultilineLiteralString t f s = .ok s' →
      ∃ e, s'.index = e ∧ s.index + 6 ≤ e ∧
        s'.symbols = s.symbols ++ [Symbol.withSpan Sym.str (s.index + 3) (e - 3)] ∧
        byteAt t (e - 3) = 39 ∧ byteAt t (e - 2) = 39 ∧ byteAt t (e - 1) = 39) ∧
    (∀ (t : List Nat) (f : Nat) (s s' : St), scanMultilineBasicString t f s = .ok s' →
      ∃ q, 3 ≤ q ∧ q ≤ 5 ∧ s.index + 3 + q ≤ s'.index ∧
        s'.symbols = s.symbols ++ [Symbol.withSpan Sym.str (s.index + 3) (s'.index - (q - 3))] ∧
        ∀ j, s'.index - q ≤ j → j < s'.index → byteAt t j = 34) ∧
    (∀ (t : List Nat) (f : Nat) (s s' : St), scanNumber t f s = .ok s' →
      ∃ e, s'.index = e ∧ s.index ≤ e ∧
        s'.symbols = s.symbols ++ [Symbol.withSpan Sym.integer s.index (e - 1)] ∧
        isNumTerm (byteAt t e)) ∧
    (∀ (t : List Nat) (f : Nat) (s : St),
      byteAt t s.index = 116 → byteAt t (s.index + 1) = 114 →
      byteAt t (s.index + 2) = 117 → byteAt t (s.index + 3) = 101 →
      scanValue t (f + 1) s =
        .ok ⟨s.index + 4, s.symbols ++ [Symbol.withSpan Sym.bool s.index (s.index + 4)]⟩) ∧
    (∀ (t : List Nat) (f : Nat) (s : St),
      byteAt t s.index = 102 → byteAt t (s.index + 1) = 97 →
      byteAt t (s.index + 2) = 108 → byteAt t (s.index + 3) = 115 →
      byteAt t (s.index + 4) = 101 →
      scanValue t (f + 1) s =
        .ok ⟨s.index + 5, s.symbols ++ [Symbol.withSpan Sym.bool s.index (s.index + 5)]⟩) ∧
    (∀ (t : List Nat) (f : Nat) (s : St),
      t.drop s.index = [105, 110, 102] ∨ t.drop s.index = [110, 97, 110] →
      scanValue t (f + 1) s =
        .ok ⟨s.index + 3, s.symbols ++ [Symbol.withSpan Sym.float s.index (s.index + 3)]⟩) :=
  ⟨scanKey_char, scanBasicString_char, scanLiteralString_char,
   scanMultilineLiteralString_char, scanMultilineBasicString_char, scanNumber_char,
   scanValue_true_bool, scanValue_false_bool, scanValue_inf_nan_float⟩

/-- C2 witness: instantiates the basic-string part of the amended claim on the
input `"ab"`. -/
theorem c2_amended_witness :
    ∃ q, byteAt [34, 97, 98, 34] q = 34 ∧ (⟨0, []⟩ : St).index + 1 ≤ q ∧
      (⟨4, [Symbol.withSpan Sym.str 1 3]⟩ : St).symbols =
        (⟨0, []⟩ : St).symbols ++ [Symbol.withSpan Sym.str ((⟨0, []⟩ : St).index + 1) q] ∧
      (⟨4, [Symbol.withSpan Sym.str 1 3]⟩ : St).index = q + 1 :=
  c2_amended.2.1 [34, 97, 98, 34] 50 ⟨0, []⟩ ⟨4, [Symbol.withSpan Sym.str 1 3]⟩ (by decide)

/-- C3 counterexample: the stored span upper bound is one past the final
included byte, so the final Eof of the empty input has hi = 1 > len = 0, and
the String of `a = """b"""` scanned to end of input has hi = 12 > len = 11.
The claimed invariant hi ≤ len fails. -/
theorem c3_counterexample :
    scanTop [] 5 = .ok ⟨0, [Symbol.new Sym.eof 0]⟩ ∧
    ¬((Symbol.new Sym.eof 0).span.hi ≤ ([] : List Nat).length) ∧
    scanTop [97, 32, 61, 32, 34, 34, 34, 98, 34, 34, 34] 100 =
      .ok ⟨11, [Symbol.withSpan Sym.key 0 0, Symbol.new Sym.assign 2,
                Symbol.withSpan Sym.str 7 11, Symbol.new Sym.eof 11]⟩ ∧
    ¬((Symbol.withSpan Sym.str 7 11).span.hi ≤
        ([97, 32, 61, 32, 34, 34, 34, 98, 34, 34, 34] : List Nat).length) := by decide

/-- C3 (amended): every Symbol ever pushed — on the success path and on the
error, panic and fuel-out paths alike — satisfies lo ≤ hi ∧ hi ≤ len + 1:
the stored upper bound may exceed the input length by exactly one (it is one
past the final included byte; Eof and tokens scanned to end of input reach
len + 1). -/
theorem c3_amended : ∀ (t : List Nat) (f : Nat) (x : Symbol),
    x ∈ (R.state (scanTop t f)).symbols →
    x.span.lo ≤ x.span.hi ∧ x.span.hi ≤ t.length + 1 :=
  fun t f x hx => scanTop_spans t f x hx

/-- C3 witness: the amended bound instantiated at the Eof symbol of the empty
input. -/
theorem c3_amended_witness :
    (Symbol.new Sym.eof 0).span.lo ≤ (Symbol.new Sym.eof 0).span.hi ∧
    (Symbol.new Sym.eof 0).span.hi ≤ ([] : List Nat).length + 1 :=
  c3_amended [] 5 (Symbol.new Sym.eof 0) (by decide)

/-- C4: on every input on which scan returns Ok, the final cursor equals
len(text) and the symbol stream ends in exactly one Eof, whose span position
(lo) is the input's byte length (every earlier symbol is non-Eof). -/
theorem c4_eof_total : ∀ (t : List Nat) (f : Nat) (s' : St), scanTop t f = .ok s' →
    s'.index = t.length ∧
    ∃ u, s'.symbols = u ++ [Symbol.new Sym.eof t.length] ∧ ∀ x ∈ u, x.sym ≠ Sym.eof :=
  fun t f s' h => scanTop_ok_eof t f s' h

/-- C4 witness: instantiated on the empty input. -/
theorem c4_eof_total_witness :
    (⟨0, [Symbol.new Sym.eof 0]⟩ : St).index = ([] : List Nat).length ∧
    ∃ u, (⟨0, [Symbol.new Sym.eof 0]⟩ : St).symbols =
      u ++ [Symbol.new Sym.eof ([] : List Nat).length] ∧ ∀ x ∈ u, x.sym ≠ Sym.eof :=
  c4_eof_total [] 5 ⟨0, [Symbol.new Sym.eof 0]⟩ (by decide)

/-- C5 counterexample: for `[a]` the first `[` is at byte 0 but the Table
symbol is emitted at position 1 (the byte after the bracket), so the claim's
general sentence is false as stated. -/
theorem c5_counterexample :
    byteAt [91, 97, 93] 0 = 91 ∧
    scanTop [91, 97, 93] 100 =
      .ok ⟨3, [Symbol.new Sym.table 1, Symbol.withSpan Sym.key 1 1,
               Symbol.new Sym.tableEnd 3, Symbol.new Sym.eof 3]⟩ ∧
    (Symbol.new Sym.table 1).span.lo ≠ 0 := by decide

/-- C5 (amended): the header symbol is emitted at the position immediately
after the `[` (Table) or after the `[[` (ArrayOfTable); for `[hello.world]`
the full output is exactly Table@1, Key[1,5], Key[7,11], TableEnd@13, Eof@13,
as the claim's example gives. -/
theorem c5_amended :
    scanTop [91, 104, 101, 108, 108, 111, 46, 119, 111, 114, 108, 100, 93] 100 =
      .ok ⟨13, [Symbol.new Sym.table 1, Symbol.withSpan Sym.key 1 5,
                Symbol.withSpan Sym.key 7 11, Symbol.new Sym.tableEnd 13,
                Symbol.new Sym.eof 13]⟩ ∧
    ∀ (t : List Nat) (f : Nat) (s : St), byteAt t s.index ≠ 0 →
      (byteAt t (s.index + 1) ≠ 91 →
        ∃ u, (R.state (scanTable t f s)).symbols =
          s.symbols ++ Symbol.new Sym.table (s.index + 1) :: u) ∧
      (byteAt t (s.index + 1) = 91 →
        ∃ u, (R.state (scanTable t f s)).symbols =
          s.symbols ++ Symbol.new Sym.arrayOfTable (s.index + 2) :: u) :=
  ⟨by decide, fun t f s h => scanTable_header t f h⟩

/-- C5 witness: the header-position part instantiated on `[a]`. -/
theorem c5_amended_witness :
    (byteAt [91, 97, 93] ((⟨0, []⟩ : St).index + 1) ≠ 91 →
      ∃ u, (R.state (scanTable [91, 97, 93] 50 ⟨0, []⟩)).symbols =
        (⟨0, []⟩ : St).symbols ++ Symbol.new Sym.table ((⟨0, []⟩ : St).index + 1) :: u) ∧
    (byteAt [91, 97, 93] ((⟨0, []⟩ : St).index + 1) = 91 →
      ∃ u, (R.state (scanTable [91, 97, 93] 50 ⟨0, []⟩)).symbols =
        (⟨0, []⟩ : St).symbols ++ Symbol.new Sym.arrayOfTable ((⟨0, []⟩ : St).index + 2) :: u) :=
  c5_amended.2 [91, 97, 93] 50 ⟨0, []⟩ (by decide)

/-- C6: the claim says `_` is accepted after a valid digit in all three based
modes and that `a = +0xA_B` scans to an Integer.  The hexadecimal branch's `_`
arm clears `allow_underscore` but never advances the cursor, so the loop sees
the same `_` again with the flag cleared and fails Unexpected at the `_`
(byte 8); the octal branch (which does advance) accepts `a = +0o1_7`. -/
theorem c6_hex_underscore_rejected :
    scanTop [97, 32, 61, 32, 43, 48, 120, 65, 95, 66] 100 =
      .err (.unexpected 8) ⟨8, [Symbol.withSpan Sym.key 0 0, Symbol.new Sym.assign 2]⟩ ∧
    scanTop [97, 32, 61, 32, 43, 48, 111, 49, 95, 55] 100 =
      .ok ⟨10, [Symbol.withSpan Sym.key 0 0, Symbol.new Sym.assign 2,
                Symbol.withSpan Sym.integer 4 9, Symbol.new Sym.eof 10]⟩ := by decide

/-- C7: the claim says `inf`/`nan` (optionally signed) produce a Float token
whatever well-formed input follows.  The `inf`/`nan` slice patterns in
`scan_value` lack a trailing `..`, so they only match when the literal is the
entire remaining input: `a = inf` succeeds, but `a = inf\n` fails Unexpected
at byte 4, and `a = +inf` is routed to `scan_number` and fails Unexpected at
byte 5. -/
theorem c7_inf_nan_only_at_end :
    scanTop [97, 32, 61, 32, 105, 110, 102] 100 =
      .ok ⟨7, [Symbol.withSpan Sym.key 0 0, Symbol.new Sym.assign 2,
               Symbol.withSpan Sym.float 4 7, Symbol.new Sym.eof 7]⟩ ∧
    scanTop [97, 32, 61, 32, 105, 110, 102, 10] 100 =
      .err (.unexpected 4) ⟨4, [Symbol.withSpan Sym.key 0 0, Symbol.new Sym.assign 2]⟩ ∧
    scanTop [97, 32, 61, 32, 43, 105, 110, 102] 100 =
      .err (.unexpected 5) ⟨5, [Symbol.withSpan Sym.key 0 0, Symbol.new Sym.assign 2]⟩ := by
  decide

/-- C8: the claim says `\r\n` line breaks inside arrays behave exactly like
`\n`.  `skip_whitespace_and_comment` breaks out of its loop right after
consuming one `\r\n`, so `a = [\r\n true]` stops skipping at the indentation
and fails Unexpected at byte 7, while `a = [\n true]` succeeds. -/
theorem c8_crlf_in_array_rejected :
    scanTop [97, 32, 61, 32, 91, 10, 32, 116, 114, 117, 101, 93] 100 =
      .ok ⟨12, [Symbol.withSpan Sym.key 0 0, Symbol.new Sym.assign 2, Symbol.new Sym.array 4,
                Symbol.withSpan Sym.bool 7 11, Symbol.new Sym.arrayEnd 11,
                Symbol.new Sym.eof 12]⟩ ∧
    scanTop [97, 32, 61, 32, 91, 13, 10, 32, 116, 114, 117, 101, 93] 100 =
      .err (.unexpected 7) ⟨7, [Symbol.withSpan Sym.key 0 0, Symbol.new Sym.assign 2,
                                Symbol.new Sym.array 4]⟩ := by decide

/-- C9 counterexample: the original claim fails in two distinct ways.  A bare
`\r` (not followed by `\n`) inside a dotted key path produces ControlCharacter,
not the claimed MultilineKey: for `k \r` the scan fails with ControlCharacter
at byte 2.  And a `\n` hit while `scan_key` is consuming the characters of a
bare key is taken by its catch-all arm and produces the expressly-denied
Unexpected: `k\n= 1` fails Unexpected at byte 1 and `[a\n]` fails Unexpected
at byte 2. -/
theorem c9_counterexample :
    scanTop [107, 32, 13] 100 = .err (.controlCharacter 2) ⟨2, [Symbol.withSpan Sym.key 0 0]⟩ ∧
    LexError.controlCharacter 2 ≠ LexError.multilineKey 2 ∧
    scanTop [107, 10, 61, 32, 49] 100 = .err (.unexpected 1) ⟨1, []⟩ ∧
    scanTop [91, 97, 10, 93] 100 = .err (.unexpected 2) ⟨2, [Symbol.new Sym.table 1]⟩ ∧
    LexError.unexpected 1 ≠ LexError.multilineKey 1 := by decide

/-- C9 (amended): at the dotted-path dispatch points — the segment loop of
`scan_dotted` after its space/tab skipping, and the segment loop of
`scan_table` — a raw `\n`, and a `\r` that IS followed by `\n`, always produce
MultilineKey at that byte, while a bare `\r` not followed by `\n` produces
ControlCharacter; none of these produce Unexpected there.  But a newline byte
(`\n` or `\r`) encountered while `scan_key` is consuming the characters of a
bare key segment falls to `scan_key`'s catch-all arm and produces Unexpected
at the newline's position, not MultilineKey. -/
theorem c9_amended : ∀ (t : List Nat) (f : Nat) (saw : Bool) (s : St),
    (byteAt t s.index = 10 →
      scanDottedLoop t (f + 2) saw s = .err (.multilineKey s.index) s ∧
      scanTableLoop t (f + 1) saw s = .err (.multilineKey s.index) s) ∧
    (byteAt t s.index = 13 → byteAt t (s.index + 1) = 10 →
      scanDottedLoop t (f + 2) saw s = .err (.multilineKey s.index) s ∧
      scanTableLoop t (f + 1) saw s = .err (.multilineKey s.index) s) ∧
    (byteAt t s.index = 13 → byteAt t (s.index + 1) ≠ 10 →
      scanDottedLoop t (f + 2) saw s = .err (.controlCharacter s.index) s ∧
      scanTableLoop t (f + 1) saw s = .err (.controlCharacter s.index) s) ∧
    (byteAt t (s.index + 1) = 10 ∨ byteAt t (s.index + 1) = 13 →
      scanKey t (f + 1) s = .err (.unexpected (s.index + 1)) (adv s)) :=
  fun t f saw s =>
    ⟨fun h => ⟨(scanDottedLoop_newline t f saw s).1 h, (scanTableLoop_newline t f saw s).1 h⟩,
     fun h h2 => ⟨(scanDottedLoop_newline t f saw s).2.1 h h2,
                  (scanTableLoop_newline t f saw s).2.1 h h2⟩,
     fun h h2 => ⟨(scanDottedLoop_newline t f saw s).2.2 h h2,
                  (scanTableLoop_newline t f saw s).2.2 h h2⟩,
     fun h => scanKey_newline t f s h⟩

/-- C9 witness: the raw-newline dispatch-point case instantiated on a one-byte
`\n` input, and the mid-key newline case instantiated on `k\n`. -/
theorem c9_amended_witness :
    (scanDottedLoop [10] (0 + 2) false ⟨0, []⟩ =
      .err (.multilineKey (⟨0, []⟩ : St).index) ⟨0, []⟩ ∧
    scanTableLoop [10] (0 + 1) false ⟨0, []⟩ =
      .err (.multilineKey (⟨0, []⟩ : St).index) ⟨0, []⟩) ∧
    scanKey [107, 10] (0 + 1) ⟨0, []⟩ =
      .err (.unexpected ((⟨0, []⟩ : St).index + 1)) (adv ⟨0, []⟩) :=
  ⟨(c9_amended [10] 0 false ⟨0, []⟩).1 (by decide),
   (c9_amended [107, 10] 0 false ⟨0, []⟩).2.2.2 (by decide)⟩

/-- C10: the symbol stream is strictly append-only: the top-level loop, value
scanning, and every string-scanning path (including both multiline forms,
whose spans the spec alleged might be retroactively shrunk) only ever extend
the symbol vector — the final bounds of every span are computed before the
push, and the input symbols are a prefix of the output on every outcome. -/
theorem c10_append_only : ∀ (t : List Nat) (f : Nat) (s : St), s.index ≤ t.length →
    (∃ u, (R.state (scanLoop t f s)).symbols = s.symbols ++ u) ∧
    (∃ u, (R.state (scanValue t f s)).symbols = s.symbols ++ u) ∧
    (byteAt t s.index ≠ 0 →
      ∃ u, (R.state (scanBasicString t f s)).symbols = s.symbols ++ u) ∧
    (byteAt t (s.index + 2) ≠ 0 →
      (∃ u, (R.state (scanMultilineBasicString t f s)).symbols = s.symbols ++ u) ∧
      (∃ u, (R.state (scanMultilineLiteralString t f s)).symbols = s.symbols ++ u)) :=
  fun t f s h =>
    ⟨spec_symbols (scanLoop_spec t f s h), spec_symbols (scanValue_spec t f h),
     fun hb => spec_symbols (scanBasicString_spec t f hb),
     fun hb => ⟨spec_symbols (scanMultilineBasicString_spec t f hb),
                spec_symbols (scanMultilineLiteralString_spec t f hb)⟩⟩

/-- C10 witness: instantiated on the input `''''''` from the empty state. -/
theorem c10_append_only_witness :
    (∃ u, (R.state (scanLoop [39, 39, 39, 39, 39, 39] 20 ⟨0, []⟩)).symbols =
      (⟨0, []⟩ : St).symbols ++ u) ∧
    (∃ u, (R.state (scanValue [39, 39, 39, 39, 39, 39] 20 ⟨0, []⟩)).symbols =
      (⟨0, []⟩ : St).symbols ++ u) ∧
    (byteAt [39, 39, 39, 39, 39, 39] (⟨0, []⟩ : St).index ≠ 0 →
      ∃ u, (R.state (scanBasicString [39, 39, 39, 39, 39, 39] 20 ⟨0, []⟩)).symbols =
        (⟨0, []⟩ : St).symbols ++ u) ∧
    (byteAt [39, 39, 39, 39, 39, 39] ((⟨0, []⟩ : St).index + 2) ≠ 0 →
      (∃ u, (R.state (scanMultilineBasicString [39, 39, 39, 39, 39, 39] 20 ⟨0, []⟩)).symbols =
        (⟨0, []⟩ : St).symbols ++ u) ∧
      (∃ u, (R.state (scanMultilineLiteralString [39, 39, 39, 39, 39, 39] 20 ⟨0, []⟩)).symbols =
        (⟨0, []⟩ : St).symbols ++ u)) :=
  c10_append_only [39, 39, 39, 39, 39, 39] 20 ⟨0, []⟩ (by decide)

end TomlLex
